import Mathlib

/-!
Shallow embedding of the core of `tracey` (src/tracey.cpp), a memory-leak
detector: the allocation registry, the tracer dispatcher, the report
generator with its call-frame trees, and the public operations
`watch` / `forget` / `restart` / `summary` / `report`.

Machine integers (`size_t`) are modelled as `Nat` reduced modulo `2 ^ 64`.
Pointers are modelled as `Nat` addresses (`0` is the null pointer).
`std::map` is modelled as a key-ordered association list whose lookup and
insertion follow the ordered-search discipline of the container.
-/

set_option autoImplicit false
set_option maxHeartbeats 1000000

namespace Tracey

/-- Modulus of the C `size_t` type; the code manipulates `size_t` counters and
sentinels, and the shipped configurations are 64-bit. -/
def W : Nat := 2 ^ 64

/-- Modulus of the C `int` type, the default value type `V` of `tree<K, V>`
(src/tracey.cpp:565); the report instantiates `tree<void *>` (src/tracey.cpp:1189),
so node values are 32-bit.  Assigning a `size_t` to the value and the `+=`
accumulation of `recalc` wrap modulo `2 ^ 32` (the two's-complement bit
pattern; signed-overflow semantics modelled as wraparound). -/
def W32 : Nat := 2 ^ 32

/-- Compile-time constant `kTraceyStacktraceSkipBegin` (src/tracey.cpp:344). -/
def kTraceyStacktraceSkipBegin : Nat := 0

/-- Compile-time constant `kTraceyStacktraceSkipEnd` (src/tracey.cpp:348). -/
def kTraceyStacktraceSkipEnd : Nat := 0

/-- Build-time configuration bits that the embedded claims depend on.
`reportWildPointers` is `kTraceyReportWildPointers` (src/tracey.cpp:360,
default off, definable to on). -/
structure Config where
  reportWildPointers : Bool
deriving DecidableEq

/-- The configuration with `kTraceyReportWildPointers` left at its default 0. -/
def cfg0 : Config := ⟨false⟩

/-- The configuration with `kTraceyReportWildPointers` defined to 1. -/
def cfgWild : Config := ⟨true⟩

/-- A captured call stack: the sequence of return-address frames
(`callstack_naked::frames[0..num_frames)`, src/tracey.cpp:863). -/
abbrev CallStack := List Nat

/-- The `leak` record (src/tracey.cpp:1066): requested size and the
monotonically increasing id assigned by `create_id()` at construction. -/
structure Leak where
  size : Nat
  id : Nat
deriving DecidableEq

/-- One value of the container map: `leak_full = std::pair<leak *, callstack *>`
(src/tracey.cpp:1074); either pointer may be null. -/
structure Entry where
  lk : Option Leak
  cs : Option CallStack
deriving DecidableEq

/-- Modelled from the spec: `stats_t` is declared in `tracey.hpp`, which is not
part of src/.  The spec gives its fields as the running counters
`{live_count, live_bytes, peak_bytes}` (code names `leaks`, `usage`, `peak` at
src/tracey.cpp:1342-1343,1414-1416) and implies the default constructor zeroes
them (`reset()` does `stats = stats_t()` and afterwards `stats()` returns
zeros). -/
structure Stats where
  leaks : Nat
  usage : Nat
  peak : Nat
deriving DecidableEq

/-- The global mutable state of the tracker: the container map
(src/tracey.cpp:1088), the global `stats` object (src/tracey.cpp:1042), the
`timestamp_id` watermark (src/tracey.cpp:1041), the `create_id()` counter
(src/tracey.cpp:1044, `nextId` is the last id handed out, starting at 0), the
`custom_mutex::recursive` reentrancy flag (src/tracey.cpp:1266), and a count
of wild-pointer diagnostics printed (each `kTraceyPrintf` at
src/tracey.cpp:1355 adds one). -/
structure State where
  map : List (Nat × Entry)
  stats : Stats
  timestampId : Nat
  nextId : Nat
  inTracer : Bool
  diagnostics : Nat
deriving DecidableEq

/-- State at process start: empty map, `stats_t` default (zeros),
`timestamp_id = 0`, id counter at 0, reentrancy flag clear. -/
def initState : State := ⟨[], ⟨0, 0, 0⟩, 0, 0, false, 0⟩

/-- Ordered-map lookup (`std::map::find`): walk the key-ascending list, stop
as soon as the stored key exceeds the probe. -/
def mapFind {A : Type} : List (Nat × A) → Nat → Option A
  | [], _ => none
  | (k, v) :: r, a => if a < k then none else if a = k then some v else mapFind r a

/-- Ordered-map write (`std::map::operator[]` followed by assignment): insert
at the ordered position, or replace the value stored under an existing key. -/
def mapSet {A : Type} : List (Nat × A) → Nat → A → List (Nat × A)
  | [], k, v => [(k, v)]
  | (k2, v2) :: r, k, v =>
    if k < k2 then (k, v) :: (k2, v2) :: r
    else if k = k2 then (k, v) :: r
    else (k2, v2) :: mapSet r k v

/-- Result of one `tracer` call: the new global state, the returned pointer,
the final value of the by-reference `size` argument, and the `stats_t`
written through `ptr` when the fill-stats opcode ran (`none` otherwise). -/
structure TOut where
  state : State
  rptr : Nat
  rsize : Nat
  statsOut : Option Stats
deriving DecidableEq

/-- The tracer dispatcher `tracer(void *ptr, size_t &size)`
(src/tracey.cpp:1296-1422).  `code` models the `int` stored at `*ptr` (read
only by the control branch), `stk` the call stack that `new tracey::callstack()`
would capture (used only by the allocation branch).  Sentinels, with
`~0 = 2^64 - 1`: free `~0`, control `(~0)-1`, size query `(~0)-2`, report
`(~0)-3`, view `(~0)-4`; any other size is an observed allocation. -/
def tracer (cfg : Config) (st : State) (ptr : Nat) (size0 : Nat) (code : Nat)
    (stk : CallStack) : TOut :=
  let size := size0 % W
  if ptr = 0 then ⟨st, ptr, 0, none⟩
  else if st.inTracer then ⟨st, ptr, 0, none⟩
  else
    let found := mapFind st.map ptr
    if size = W - 1 then
      match found with
      | some e =>
        let stats1 :=
          match e.lk with
          | some l =>
            Stats.mk ((st.stats.leaks + (W - 1)) % W)
              ((st.stats.usage + (W - l.size % W)) % W) st.stats.peak
          | none => st.stats
        ⟨State.mk (mapSet st.map ptr ⟨none, none⟩) stats1 st.timestampId st.nextId
          st.inTracer st.diagnostics, ptr, size, none⟩
      | none =>
        ⟨State.mk st.map st.stats st.timestampId st.nextId st.inTracer
          (st.diagnostics + (if cfg.reportWildPointers then 1 else 0)), 0, size, none⟩
    else if size = W - 2 then
      if code = 1 then
        ⟨State.mk [] ⟨0, 0, 0⟩ (st.nextId + 1) (st.nextId + 1) st.inTracer st.diagnostics,
          ptr, size, none⟩
      else if code = 2 then ⟨st, ptr, size, some st.stats⟩
      else ⟨st, ptr, size, none⟩
    else if size = W - 3 then
      match found with
      | some e =>
        match e.lk with
        | some l => ⟨st, ptr, l.size, none⟩
        | none => ⟨st, ptr, 0, none⟩
      | none => ⟨st, 0, 0, none⟩
    else if size = W - 4 then ⟨st, ptr, size, none⟩
    else if size = W - 5 then ⟨st, ptr, size, none⟩
    else
      let l : Leak := ⟨size, st.nextId + 1⟩
      let usage1 := (st.stats.usage + size) % W
      ⟨State.mk (mapSet st.map ptr ⟨some l, some stk⟩)
          ⟨(st.stats.leaks + 1) % W, usage1,
            if usage1 > st.stats.peak then usage1 else st.stats.peak⟩
          st.timestampId (st.nextId + 1) st.inTracer st.diagnostics, ptr, size, none⟩

/-- `tracey::watch(ptr, size)` (src/tracey.cpp:1428): forwards to the tracer.
`stk` and `code` are the environmental inputs the tracer would read. -/
def watch (cfg : Config) (st : State) (p size : Nat) (stk : CallStack) (code : Nat) : State :=
  (tracer cfg st p size code stk).state

/-- `tracey::forget(ptr)` (src/tracey.cpp:1432): calls the tracer with the
free sentinel `(~0)`. -/
def forget (cfg : Config) (st : State) (p : Nat) : State :=
  (tracer cfg st p (W - 1) 0 []).state

/-- `tracey::restart()` (src/tracey.cpp:1437): calls the tracer with the
control sentinel `(~0)-1` and a pointer to a local `opcode = 1`; the pointer
is a nonzero stack address, modelled as `1`. -/
def restart (cfg : Config) (st : State) : State :=
  (tracer cfg st 1 (W - 2) 1 []).state

/-- `tracey::summary()` (src/tracey.cpp:1441): declares a default-constructed
local `stats_t st`, calls the tracer with sentinel `(~0)-2` (the size-query
opcode) and `&st`, and returns `st`.  The local is only overwritten if the
tracer writes a `stats_t` through the pointer; the address of the local is a
nonzero stack address, modelled as `1`. -/
def summary (cfg : Config) (st : State) : Stats :=
  match (tracer cfg st 1 (W - 3) 1 []).statsOut with
  | some s => s
  | none => ⟨0, 0, 0⟩

/-- One host-visible event: an observed allocation (with the stack the tracer
would capture), an observed free, or a `restart()` request. -/
inductive Op : Type where
  | watch : Nat → Nat → CallStack → Op
  | forget : Nat → Op
  | restart : Op
deriving DecidableEq

/-- Execute one operation against the state. -/
def step (cfg : Config) (st : State) : Op → State
  | .watch p s stk => watch cfg st p s stk 0
  | .forget p => forget cfg st p
  | .restart => restart cfg st

/-- Execute a whole history from process start. -/
def run (cfg : Config) (ops : List Op) : State := ops.foldl (step cfg) initState

/-- `container::collect_leaks(&wasted)` (src/tracey.cpp:1131-1148): walk the
map in key order, keep the entries whose `leak` and `callstack` pointers are
both non-null and whose id is `>= timestamp_id`, accumulating the wasted
bytes. -/
def collectLeaks (st : State) : List (Nat × Leak × CallStack) × Nat :=
  st.map.foldl
    (fun acc pr =>
      match pr.2.lk, pr.2.cs with
      | some l, some c =>
        if l.id ≥ st.timestampId then (acc.1 ++ [(pr.1, l, c)], (acc.2 + l.size) % W)
        else acc
      | _, _ => acc)
    ([], 0)

/-- The size recorded for a live allocation at address `a` (`none` when the
map has no entry there, or only a nulled-out entry left behind by a free). -/
def recordOf (st : State) (a : Nat) : Option Nat :=
  match mapFind st.map a with
  | some e => e.lk.map Leak.size
  | none => none

/-- `n_leak` of a report over the current state (src/tracey.cpp:1164-1166). -/
def nLeaks (st : State) : Nat := (collectLeaks st).1.length

/-- `wasted` of a report over the current state (src/tracey.cpp:1164-1165). -/
def wasted (st : State) : Nat := (collectLeaks st).2

/-! ## The call-frame tree (src/tracey.cpp:565-799)

`tree<K,V>` is an ordered map from keys to subtrees with a per-node value.
Keys here are frame addresses (`void *`, modelled as `Nat`); the value type is
the default `V = int`, so a node's value holds the low 32 bits of the byte
count written into it.  The children mapping reuses `mapFind` / `mapSet`,
the ordered-map model used for the container. -/

inductive Tree : Type where
  | node : Nat → List (Nat × Tree) → Tree

/-- The per-node aggregate value (`tree::get`, src/tracey.cpp:640). -/
def Tree.value : Tree → Nat
  | .node v _ => v

/-- The ordered children mapping (`tree::children`, src/tracey.cpp:707). -/
def Tree.children : Tree → List (Nat × Tree)
  | .node _ cs => cs

/-- Sum of the children's values, as accumulated by the loop of
`tree::recalc` (src/tracey.cpp:794-796). -/
def sumC : List (Nat × Tree) → Nat
  | [] => 0
  | (_, t) :: r => Tree.value t + sumC r

mutual

/-- `tree::recalc()` (src/tracey.cpp:792-798): an empty node keeps its value,
an internal node's value becomes the sum of its recalculated children,
accumulated by `+=` in the 32-bit `int` value type (wraparound modelled as
reduction modulo `2 ^ 32`). -/
def Tree.recalc : Tree → Tree
  | .node v [] => .node v []
  | .node _ (c :: cs) =>
    let cs2 := recalcList (c :: cs)
    .node (sumC cs2 % W32) cs2

/-- Children traversal of `tree::recalc`. -/
def recalcList : List (Nat × Tree) → List (Nat × Tree)
  | [] => []
  | (k, t) :: r => (k, Tree.recalc t) :: recalcList r

end

/-- `tree::operator()(k)` used once per key of the tree-building loop followed
by the value assignment `= size` and the descent into the child, iterated over
a whole frame path (src/tracey.cpp:1199-1207): each key on the path gets its
node created if absent, its value overwritten with the leak's size — the
`size_t` narrowed to the `int` value type, i.e. reduced modulo `2 ^ 32` —
and the insertion continues below it. -/
def insertPath : Tree → List Nat → Nat → Tree
  | t, [], _ => t
  | t, k :: ks, sz =>
    let c0 := (mapFind (Tree.children t) k).getD (Tree.node 0 [])
    let c1 := Tree.node (sz % W32) (Tree.children c0)
    let c2 := insertPath c1 ks sz
    Tree.node (Tree.value t) (mapSet (Tree.children t) k c2)

/-- `tree::operator()(k)` called for its creation side effect only
(src/tracey.cpp:1190-1191): ensure a child exists under `k`. -/
def insertKey (t : Tree) (k : Nat) : Tree :=
  Tree.node (Tree.value t) (mapSet (Tree.children t) k
    ((mapFind (Tree.children t) k).getD (Tree.node 0 [])))

/-- The frame indices visited by the tree-building loop
(src/tracey.cpp:1199): `start + i` for `i` with
`start + i <= num_frames - 1 - skip_end`, `start = skip_begin`; with the
default skip constants this window is the whole captured stack. -/
def framesWindow (f : CallStack) : List Nat :=
  (f.drop kTraceyStacktraceSkipBegin).take
    (f.length - kTraceyStacktraceSkipBegin - kTraceyStacktraceSkipEnd)

/-- One iteration of the tree-building loop over the filtered leaks
(src/tracey.cpp:1192-1209).  A leak with no captured frames contributes
nothing.  Otherwise its frame window is inserted as a path under the
bottom-top branch (key `(~0)-0`) and its reverse (`frames[end - i]`) under the
top-bottom branch (key `(~0)-1`).  The source interleaves the two insertions
frame by frame; the branches are disjoint subtrees, so the interleaving is
equivalent to the two whole-path insertions performed here in sequence. -/
def addLeak (t : Tree) (pr : CallStack × Nat) : Tree :=
  if pr.1.length = 0 then t
  else
    let w := framesWindow pr.1
    let bu := (mapFind (Tree.children t) (W - 1)).getD (Tree.node 0 [])
    let t1 := Tree.node (Tree.value t) (mapSet (Tree.children t) (W - 1) (insertPath bu w pr.2))
    let td := (mapFind (Tree.children t1) (W - 2)).getD (Tree.node 0 [])
    Tree.node (Tree.value t1) (mapSet (Tree.children t1) (W - 2)
      (insertPath td w.reverse pr.2))

/-- The tree built by `container::_report` (src/tracey.cpp:1188-1209): a root
holding the bottom-top branch `tree((void *)((~0)-0))` and the top-bottom
branch `tree((void *)((~0)-1))`, then one `addLeak` pass per filtered leak. -/
def buildTree (leaks : List (CallStack × Nat)) : Tree :=
  leaks.foldl addLeak (insertKey (insertKey (Tree.node 0 []) (W - 1)) (W - 2))

/-- The bottom-top branch of the report tree. -/
def buRootOf (t : Tree) : Tree := (mapFind (Tree.children t) (W - 1)).getD (Tree.node 0 [])

/-- The top-bottom branch of the report tree. -/
def tdRootOf (t : Tree) : Tree := (mapFind (Tree.children t) (W - 2)).getD (Tree.node 0 [])

/-- Sum of `node.value` over the direct children of a node. -/
def childrenValueSum (t : Tree) : Nat := sumC (Tree.children t)

mutual

/-- Sum of the values of a tree's leaf nodes (the quantity `recalc`
propagates to the root). -/
def leavesSum : Tree → Nat
  | .node v [] => v
  | .node _ (c :: cs) => leavesSumL (c :: cs)

/-- `leavesSum` summed over a children list. -/
def leavesSumL : List (Nat × Tree) → Nat
  | [] => 0
  | (_, t) :: r => leavesSum t + leavesSumL r

end

/-- `freshL cs p` holds when inserting path `p` below a node with children
`cs` creates the path's endpoint as a brand-new leaf and meets only internal
nodes on the way: every existing node along `p` has children, and no node
exists yet at `p` itself. -/
def freshL : List (Nat × Tree) → List Nat → Bool
  | _, [] => false
  | cs, [k] => (mapFind cs k).isNone
  | cs, k :: k2 :: ks =>
    match mapFind cs k with
    | none => true
    | some c => !(Tree.children c).isEmpty && freshL (Tree.children c) (k2 :: ks)

/-- Two paths are prefix-incomparable: neither is a prefix of the other (in
particular they are distinct and both nonempty when the other is). -/
def incomp (a b : List Nat) : Prop :=
  a.isPrefixOf b = false ∧ b.isPrefixOf a = false

/-! ## The report text (src/tracey.cpp:1150-1261)

`container::_report` writes the report into a temporary file and returns the
file's path.  The platform pieces are parameters: `tmp` stands for
`get_temp_pathfile()` and `resolve` for `resolve_stack_trace` (the symbol
resolver, which must return one label per input frame).  `double` arithmetic
of the score is modelled over `ℚ`; the values involved
(`n * 100.0 / m` against `0`, `1.25`, `2.5`, `5`, `10`) are small enough that
the double computation matches the rational one except on half-ulp boundary
ties, which no claim exercises. -/

/-- `leaks_pct` (src/tracey.cpp:1170): `this->size() ? n_leak * 100.0 /
this->size() : 0.0`, where `this->size()` counts every entry of the container
map, nulled entries left behind by frees included. -/
def leaksPct (nleak msize : Nat) : ℚ :=
  if msize ≠ 0 then (nleak : ℚ) * 100 / (msize : ℚ) else 0

/-- The score selection chain (src/tracey.cpp:1171-1176): a cascade of
overwriting `if`s, so the last matching threshold wins. -/
def scoreOf (pct : ℚ) : String :=
  let s := "perfect!"
  let s := if pct > 0 then "excellent" else s
  let s := if pct > 5 / 4 then "good" else s
  let s := if pct > 5 / 2 then "poor" else s
  let s := if pct > 5 then "mediocre" else s
  if pct > 10 then "lame" else s

/-- The quality score a report over state `st` prints. -/
def scoreOfState (st : State) : String := scoreOf (leaksPct (nLeaks st) st.map.length)

/-- Modelled from the spec: the quality-score formula as the claim states it,
with first-match buckets over `pct = 100 * leaks / total_allocations_ever`. -/
def specScore (pct : ℚ) : String :=
  if pct = 0 then "perfect!"
  else if pct ≤ 5 / 4 then "excellent"
  else if pct ≤ 5 / 2 then "good"
  else if pct ≤ 5 then "poor"
  else if pct ≤ 10 then "mediocre"
  else "lame"

/-- Modelled from the spec: `total_allocations_ever`, the number of allocation
events the tracer has observed — operations that reach the allocation branch
(nonzero pointer, non-sentinel size). -/
def specTotalAllocationsEver (ops : List Op) : Nat :=
  (ops.filter (fun o =>
    match o with
    | Op.watch p s _ => p != 0 && s % W < W - 5
    | _ => false)).length

/-- `tracey::version()` (src/tracey.cpp:1472). -/
def traceyVersion : String := "tracey-0.20.b"

/-- `tracey::url()` (src/tracey.cpp:1475). -/
def traceyUrl : String := "https://github.com/r-lyeh/tracey"

/-- The banner line of the report header (src/tracey.cpp:1180), the format
`"... generated with \1 (\2)" kTraceyCharLinefeed` applied to version and
url. -/
def bannerLine : String :=
  "<tracey/tracey.cpp> says: generated with " ++ traceyVersion ++ " (" ++ traceyUrl
    ++ ")" ++ "\n"

/-- The viewer-hint line of the report header (src/tracey.cpp:1181). -/
def hintLine : String :=
  "<tracey/tracey.cpp> says: best viewed on foldable text editor (like SublimeText2) with tabs=2sp and no word-wrap"
    ++ "\n"

/-- The summary line of the report header (src/tracey.cpp:1182), the format
`"... \1, \2 leaks found; \3 bytes wasted ('\4' score)"` applied to
`!n_leak ? "ok" : "error"`, `n_leak`, `wasted` and the score. -/
def summaryLine (nleak wastedB : Nat) (score : String) : String :=
  "<tracey/tracey.cpp> says: " ++ (if nleak = 0 then "ok" else "error") ++ ", "
    ++ toString nleak ++ " leaks found; " ++ toString wastedB ++ " bytes wasted ('"
    ++ score ++ "' score)" ++ "\n"

/-- `tracey::string("\1", frame)` on a `void *` (src/tracey.cpp:1232): the
standard-stream rendering of a pointer, `0x` followed by lowercase hex. -/
def hexStr (n : Nat) : String := "0x" ++ String.mk (Nat.toDigits 16 n)

/-- `std::set<void *>::insert` (src/tracey.cpp:1188,1203,1207): ordered,
duplicate-free. -/
def setInsert (s : List Nat) (x : Nat) : List Nat :=
  match s with
  | [] => [x]
  | y :: r => if x < y then x :: y :: r else if x = y then y :: r else y :: setInsert r x

/-- The set of unique frame addresses collected while building the trees
(src/tracey.cpp:1199-1208).  The loop inserts `frames[start+i]` and
`frames[end-i]` for every window index `i`; both ranges enumerate exactly the
elements of the frame window, so the resulting set is the union of the
windows of the leaks that have frames. -/
def framesSet (filtered : List (Nat × Leak × CallStack)) : List Nat :=
  filtered.foldl
    (fun s pr =>
      if pr.2.2.length ≠ 0 then (framesWindow pr.2.2).foldl setInsert s else s) []

mutual

/-- `tree::print(tmap, fp, depth)` (src/tracey.cpp:746-752): one line per
child — `depth` tabs, `[<children-count of the node being iterated>]`, the
child's label from the translation map, `(<child's value>)` — followed by the
child's own subtree. -/
def printNode (tmap : List (Nat × String)) (depth : Nat) : Tree → String
  | .node _ cs => printList tmap depth cs.length cs

/-- Iteration of `tree::print` over a children list (`n` is `this->size()`,
printed on every line of the level). -/
def printList (tmap : List (Nat × String)) (depth n : Nat) : List (Nat × Tree) → String
  | [] => ""
  | (k, c) :: rest =>
    String.mk (List.replicate depth '\t') ++ "[" ++ toString n ++ "] "
      ++ (mapFind tmap k).getD ("") ++ " (" ++ toString (Tree.value c) ++ ")" ++ "\n"
      ++ printNode tmap (depth + 1) c ++ printList tmap depth n rest

end

/-- The tree section of the report body (src/tracey.cpp:1214-1254): nothing
is written to the file when the frame set is empty (the diagnostic in that
case goes to the console, not the file); otherwise the resolver is invoked on
the unique frames, a translation map is built (falling back to hex addresses
— after a `cannot resolve all frames` line — when the resolver returned the
wrong number of labels), the two synthetic branch keys get their fixed
labels, and the recalculated tree is printed. -/
def reportBody (st : State) (resolve : List Nat → List String) : String :=
  let filtered := (collectLeaks st).1
  let t := buildTree (filtered.map (fun pr => (pr.2.2, pr.2.1.size)))
  let s := framesSet filtered
  if s.length = 0 then ""
  else
    let symbols := resolve s
    let errLine :=
      if s.length ≠ symbols.length then
        "<tracey/tracey.cpp> says: error! cannot resolve all frames (" ++ toString s.length
          ++ " vs " ++ toString symbols.length ++ ")!" ++ "\n"
      else ""
    let translate :=
      if s.length ≠ symbols.length then s.foldl (fun m f => mapSet m f (hexStr f)) []
      else (s.zip symbols).foldl (fun m pr => mapSet m pr.1 pr.2) []
    let translate := mapSet translate (W - 1)
      "bottom-top normal tree (useful to find leak endings)"
    let translate := mapSet translate (W - 2)
      "top-bottom normal tree (useful to find leak beginnings)"
    errLine ++ printNode translate 0 (Tree.recalc t)

/-- Everything `container::_report` prints between the HTML envelope tags:
banner, hint, summary line, then the tree section. -/
def reportMiddle (st : State) (resolve : List Nat → List String) : String :=
  bannerLine ++ hintLine
    ++ summaryLine (nLeaks st) (wasted st) (scoreOfState st)
    ++ reportBody st resolve

/-- The full text `container::_report` writes into the log file
(src/tracey.cpp:1179-1257): header `"<html><body><xmp>"`, the middle, footer
`"</xmp></body></html>"`. -/
def reportContent (st : State) (resolve : List Nat → List String) : String :=
  "<html><body><xmp>" ++ reportMiddle st resolve ++ "</xmp></body></html>"

/-- `container::_report` (src/tracey.cpp:1150-1261) as a whole: the pair of
its return value — the log-file path `get_temp_pathfile() + "xxx-tracey.html"`
— and the text written into that file. -/
def reportM (st : State) (tmp : String) (resolve : List Nat → List String) :
    String × String :=
  (tmp ++ "xxx-tracey.html", reportContent st resolve)

/-- `tracey::report()` (src/tracey.cpp:1447): a default-empty `tracey::string
rep` is passed to the tracer under the report sentinel `(~0)-3`; the report
branch assigns `map._report()` — the log-file path — to it.  The tracer
leaves the registry state unchanged on this path; when the reentrancy flag is
set the call returns with `rep` still empty. -/
def reportResult (st : State) (tmp : String) (resolve : List Nat → List String) : String :=
  if st.inTracer then "" else (reportM st tmp resolve).1

/-! ## Specification-side definitions used by the claims -/

/-- First-match lookup in a plain association list (used for the
specification-level list of outstanding allocations). -/
def lookupL : List (Nat × Nat) → Nat → Option Nat
  | [], _ => none
  | (k, v) :: r, a => if a = k then some v else lookupL r a

/-- Remove the first binding of a key from an association list. -/
def eraseKey : List (Nat × Nat) → Nat → List (Nat × Nat)
  | [], _ => []
  | (k, v) :: r, a => if a = k then r else (k, v) :: eraseKey r a

/-- Total bytes of a list of outstanding allocations. -/
def sumLive (live : List (Nat × Nat)) : Nat := (live.map Prod.snd).sum

/-- Total bytes ever passed to `watch` in a history. -/
def watchTotal : List Op → Nat
  | [] => 0
  | Op.watch _ s _ :: r => s + watchTotal r
  | Op.forget _ :: r => watchTotal r
  | Op.restart :: r => watchTotal r

/-- The claim's well-formedness condition on a `watch`/`forget` history,
computed together with the outstanding allocations: every `watch` uses a
nonzero address not currently live and a non-sentinel size, and every
`forget` matches a currently live address.  Returns `none` for histories
outside the claim's scope. -/
def runOuts : List (Nat × Nat) → List Op → Option (List (Nat × Nat))
  | live, [] => some live
  | live, Op.watch p sz _ :: rest =>
    if p ≠ 0 ∧ sz < W - 5 ∧ (lookupL live p).isNone = true then
      runOuts ((p, sz) :: live) rest
    else none
  | live, Op.forget p :: rest =>
    match lookupL live p with
    | some _ => runOuts (eraseKey live p) rest
    | none => none
  | _, Op.restart :: _ => none

/-- The registry/outstanding-list simulation invariant for claim C3: the
reentrancy flag is clear, the live records of the map are exactly the
outstanding allocations, the counters track their total bytes and their
number (modulo the machine word), all of them have well-formed sizes and
nonzero addresses, and no address is outstanding twice. -/
def Inv (st : State) (live : List (Nat × Nat)) : Prop :=
  st.inTracer = false
    ∧ (∀ a, recordOf st a = lookupL live a)
    ∧ st.stats.usage = sumLive live % W
    ∧ st.stats.leaks = live.length % W
    ∧ (∀ pr, pr ∈ live → pr.2 < W)
    ∧ (∀ pr, pr ∈ live → pr.1 ≠ 0)
    ∧ (live.map Prod.fst).Nodup

instance (a b : List Nat) : Decidable (incomp a b) :=
  inferInstanceAs (Decidable (a.isPrefixOf b = false ∧ b.isPrefixOf a = false))

/-- A churn history: the same address is allocated and freed nine times, then
allocated once more, for ten allocation events in total at one map entry. -/
def c7ops : List Op :=
  [Op.watch 1 1 [], Op.forget 1, Op.watch 1 1 [], Op.forget 1, Op.watch 1 1 [],
    Op.forget 1, Op.watch 1 1 [], Op.forget 1, Op.watch 1 1 [], Op.forget 1,
    Op.watch 1 1 [], Op.forget 1, Op.watch 1 1 [], Op.forget 1, Op.watch 1 1 [],
    Op.forget 1, Op.watch 1 1 [], Op.forget 1, Op.watch 1 1 []]

/-! ## Basic lemmas about the ordered-map model -/

theorem mapFind_mapSet_self {A : Type} (m : List (Nat × A)) (k : Nat) (v : A) :
    mapFind (mapSet m k v) k = some v := by
  induction m with
  | nil => simp [mapFind, mapSet]
  | cons hd tl ih =>
    obtain ⟨k2, v2⟩ := hd
    by_cases h1 : k < k2
    · simp [mapSet, h1, mapFind, lt_irrefl]
    · by_cases h2 : k = k2
      · simp [mapSet, h1, h2, mapFind]
      · simp [mapSet, h1, h2, mapFind, ih]

theorem mapFind_mapSet_ne {A : Type} (m : List (Nat × A)) (k a : Nat) (v : A)
    (h : a ≠ k) : mapFind (mapSet m k v) a = mapFind m a := by
  induction m with
  | nil =>
    simp only [mapSet, mapFind, h, if_false]
    split <;> rfl
  | cons hd tl ih =>
    obtain ⟨k2, v2⟩ := hd
    by_cases h1 : k < k2
    · by_cases ha : a < k
      · have hak2 : a < k2 := lt_trans ha h1
        simp [mapSet, h1, mapFind, ha, hak2]
      · simp [mapSet, h1, mapFind, ha, h]
    · by_cases h2 : k = k2
      · subst h2
        simp [mapSet, h1, mapFind, h]
      · simp [mapSet, h1, h2, mapFind, ih]

/-! ## Symbolic step lemmas for the tracer

Each lemma discharges the dispatcher's branch conditions once; the claim
proofs below chain them. -/

theorem watch_step (cfg : Config) (st : State) (p s : Nat) (stk : CallStack) (code : Nat)
    (hp : p ≠ 0) (hi : st.inTracer = false) (hs : s < W - 5) :
    watch cfg st p s stk code =
      State.mk (mapSet st.map p ⟨some ⟨s, st.nextId + 1⟩, some stk⟩)
        ⟨(st.stats.leaks + 1) % W, (st.stats.usage + s) % W,
          if (st.stats.usage + s) % W > st.stats.peak then (st.stats.usage + s) % W
          else st.stats.peak⟩
        st.timestampId (st.nextId + 1) st.inTracer st.diagnostics := by
  have hW : W = 2 ^ 64 := rfl
  have hsW : s < W := by omega
  have hmod : s % W = s := Nat.mod_eq_of_lt hsW
  have e1 : s ≠ W - 1 := by omega
  have e2 : s ≠ W - 2 := by omega
  have e3 : s ≠ W - 3 := by omega
  have e4 : s ≠ W - 4 := by omega
  have e5 : s ≠ W - 5 := by omega
  unfold watch tracer
  rw [hi]
  simp [hp, hmod, e1, e2, e3, e4, e5]

theorem forget_step_found (cfg : Config) (st : State) (p : Nat) (e : Entry) (l : Leak)
    (hp : p ≠ 0) (hi : st.inTracer = false)
    (hf : mapFind st.map p = some e) (hl : e.lk = some l) :
    forget cfg st p =
      State.mk (mapSet st.map p ⟨none, none⟩)
        ⟨(st.stats.leaks + (W - 1)) % W, (st.stats.usage + (W - l.size % W)) % W,
          st.stats.peak⟩
        st.timestampId st.nextId st.inTracer st.diagnostics := by
  have hmod : (W - 1) % W = W - 1 := by decide
  unfold forget tracer
  rw [hi]
  simp [hp, hmod, hf, hl]

theorem forget_step_nulled (cfg : Config) (st : State) (p : Nat) (e : Entry)
    (hp : p ≠ 0) (hi : st.inTracer = false)
    (hf : mapFind st.map p = some e) (hl : e.lk = none) :
    forget cfg st p =
      State.mk (mapSet st.map p ⟨none, none⟩) st.stats
        st.timestampId st.nextId st.inTracer st.diagnostics := by
  have hmod : (W - 1) % W = W - 1 := by decide
  unfold forget tracer
  rw [hi]
  simp [hp, hmod, hf, hl]

theorem forget_step_missing (cfg : Config) (st : State) (p : Nat)
    (hp : p ≠ 0) (hi : st.inTracer = false) (hf : mapFind st.map p = none) :
    forget cfg st p =
      State.mk st.map st.stats st.timestampId st.nextId st.inTracer
        (st.diagnostics + (if cfg.reportWildPointers then 1 else 0)) := by
  have hmod : (W - 1) % W = W - 1 := by decide
  unfold forget tracer
  rw [hi]
  simp [hp, hmod, hf]

theorem restart_step (cfg : Config) (st : State) (hi : st.inTracer = false) :
    restart cfg st =
      State.mk [] ⟨0, 0, 0⟩ (st.nextId + 1) (st.nextId + 1) st.inTracer st.diagnostics := by
  have hmod : (W - 2) % W = W - 2 := by decide
  have d1 : W - 2 ≠ W - 1 := by decide
  unfold restart tracer
  rw [hi]
  simp [hmod, d1]

/-- `tracey::summary()` never reaches the fill-stats opcode: the size-query
branch it dispatches to writes no `stats_t`, so the default-constructed local
is returned unchanged, whatever the registry holds. -/
theorem summary_is_default (cfg : Config) (st : State) : summary cfg st = ⟨0, 0, 0⟩ := by
  have hmod : (W - 3) % W = W - 3 := by decide
  have d1 : W - 3 ≠ W - 1 := by decide
  have d2 : W - 3 ≠ W - 2 := by decide
  unfold summary tracer
  by_cases hit : st.inTracer
  · simp [hit]
  · simp only [hit]
    rcases h : mapFind st.map 1 with _ | e
    · simp [hmod, d1, d2, h]
    · rcases e with ⟨lk, cs⟩
      rcases lk with _ | l <;> simp [hmod, d1, d2, h]

/-! ## Claim C1 -/

/-- C1: after `watch(0x1,8); forget(0x1)` the running counters are
`{live_count = 0, live_bytes = 0, peak_bytes = 8}`, but the public stats
operation `tracey::summary()` does NOT return that snapshot: it dispatches
the size-query sentinel `(~0)-2` with the address of its local `stats_t`
(which the size-query branch never writes), so it returns the
default-constructed `{0,0,0}` — for every registry state.  The claim (and
the spec's `stats()` row) describe the fill-stats opcode `2` of the control
branch, which no public operation ever invokes. -/
theorem c1_stats_code_bug :
    (run cfg0 [Op.watch 1 8 [], Op.forget 1]).stats = ⟨0, 0, 8⟩
      ∧ summary cfg0 (run cfg0 [Op.watch 1 8 [], Op.forget 1]) = ⟨0, 0, 0⟩
      ∧ (∀ cfg st, summary cfg st = ⟨0, 0, 0⟩) :=
  ⟨by decide, by decide, fun cfg st => summary_is_default cfg st⟩

/-! ## Claim C2 -/

/-- C2 counterexample: after `watch(0x3,10); watch(0x3,20); forget(0x3)` the
counters are `live_count = 1` and `live_bytes = 10`, not the claimed zeros:
the overwriting `watch` does not release the first record's accounting. -/
theorem c2_counterexample :
    (run cfg0 [Op.watch 3 10 [], Op.watch 3 20 [], Op.forget 3]).stats.leaks = 1
      ∧ (run cfg0 [Op.watch 3 10 [], Op.watch 3 20 [], Op.forget 3]).stats.usage = 10 := by
  exact ⟨by decide, by decide⟩

/-- C2 amended: `watch(p,s1); watch(p,s2)` overwrites the first record with
the second but does NOT release the first record's accounting, so the
subsequent `forget(p)` (which releases only the second record) leaves
`live_count = 1` and `live_bytes = s1`, with no live record left at `p`. -/
theorem c2_amended (cfg : Config) (p s1 s2 : Nat) (stk1 stk2 : CallStack)
    (hp : p ≠ 0) (h1 : s1 < W - 5) (h2 : s2 < W - 5) :
    recordOf (forget cfg (watch cfg (watch cfg initState p s1 stk1 0) p s2 stk2 0) p) p = none
      ∧ (forget cfg (watch cfg (watch cfg initState p s1 stk1 0) p s2 stk2 0) p).stats.leaks = 1
      ∧ (forget cfg (watch cfg (watch cfg initState p s1 stk1 0) p s2 stk2 0) p).stats.usage
          = s1 := by
  have hW : W = 18446744073709551616 := by decide
  rw [watch_step cfg initState p s1 stk1 0 hp rfl h1]
  rw [watch_step cfg _ p s2 stk2 0 hp rfl h2]
  rw [forget_step_found cfg _ p ⟨some ⟨s2, _⟩, some stk2⟩ ⟨s2, _⟩ hp rfl
    (mapFind_mapSet_self _ _ _) rfl]
  refine ⟨?_, ?_, ?_⟩
  · simp [recordOf, mapFind_mapSet_self]
  · simp [initState, hW]
  · simp [initState, hW]
    omega

/-- C2 amended, witness at `p = 3, s1 = 10, s2 = 20`. -/
theorem c2_amended_witness :
    ((3 : Nat) ≠ 0 ∧ 10 < W - 5 ∧ 20 < W - 5)
      ∧ (forget cfg0 (watch cfg0 (watch cfg0 initState 3 10 [] 0) 3 20 [] 0) 3).stats.usage
          = 10 :=
  ⟨⟨by decide, by decide, by decide⟩,
    (c2_amended cfg0 3 10 20 [] [] (by decide) (by decide) (by decide)).2.2⟩

/-! ## Claim C9 -/

/-- C9: whenever the reentrancy flag is set, the tracer call returns without
modifying anything: the resulting state is the input state, in particular the
registry map, the counters and the reset watermark are untouched. -/
theorem c9_reentrant_ignored (cfg : Config) (st : State) (p size code : Nat)
    (stk : CallStack) (h : st.inTracer = true) :
    (tracer cfg st p size code stk).state = st
      ∧ (tracer cfg st p size code stk).state.map = st.map
      ∧ (tracer cfg st p size code stk).state.stats = st.stats
      ∧ (tracer cfg st p size code stk).state.timestampId = st.timestampId := by
  have hmain : (tracer cfg st p size code stk).state = st := by
    unfold tracer
    by_cases hp : p = 0 <;> simp [hp, h]
  exact ⟨hmain, by rw [hmain], by rw [hmain], by rw [hmain]⟩

/-- C9 witness: a nested `watch(5, 7)` under a set reentrancy flag changes
nothing. -/
theorem c9_reentrant_ignored_witness :
    (State.mk [] ⟨0, 0, 0⟩ 0 0 true 0).inTracer = true
      ∧ (tracer cfg0 (State.mk [] ⟨0, 0, 0⟩ 0 0 true 0) 5 7 0 []).state
          = State.mk [] ⟨0, 0, 0⟩ 0 0 true 0 :=
  ⟨rfl, (c9_reentrant_ignored cfg0 (State.mk [] ⟨0, 0, 0⟩ 0 0 true 0) 5 7 0 [] rfl).1⟩

/-! ## Claim C10 -/

/-- C10: calling `watch(p, s)` with a dispatcher sentinel `s` does not
register an allocation — the resulting registry holds no live record that the
previous state did not already hold — and `watch(p, SIZE_MAX)` is exactly
`forget(p)`. -/
theorem c10_sentinel_dispatch :
    (∀ cfg st p stk code, p ≠ 0 → watch cfg st p (W - 1) stk code = forget cfg st p)
      ∧ (∀ cfg st p stk code s, p ≠ 0 → s ∈ [W - 1, W - 2, W - 3, W - 4, W - 5] →
          ∀ a sz, recordOf (watch cfg st p s stk code) a = some sz →
            recordOf st a = some sz) := by
  have hm1 : (W - 1) % W = W - 1 := by decide
  have hm2 : (W - 2) % W = W - 2 := by decide
  have hm3 : (W - 3) % W = W - 3 := by decide
  have hm4 : (W - 4) % W = W - 4 := by decide
  have hm5 : (W - 5) % W = W - 5 := by decide
  have d21 : W - 2 ≠ W - 1 := by decide
  have d31 : W - 3 ≠ W - 1 := by decide
  have d32 : W - 3 ≠ W - 2 := by decide
  have d41 : W - 4 ≠ W - 1 := by decide
  have d42 : W - 4 ≠ W - 2 := by decide
  have d43 : W - 4 ≠ W - 3 := by decide
  have d51 : W - 5 ≠ W - 1 := by decide
  have d52 : W - 5 ≠ W - 2 := by decide
  have d53 : W - 5 ≠ W - 3 := by decide
  have d54 : W - 5 ≠ W - 4 := by decide
  constructor
  · intro cfg st p stk code hp
    unfold watch forget tracer
    by_cases hit : st.inTracer <;> simp [hp, hit, hm1]
  · intro cfg st p stk code s hp hmem a sz
    have hd : s = W - 1 ∨ s = W - 2 ∨ s = W - 3 ∨ s = W - 4 ∨ s = W - 5 := by
      simpa using hmem
    unfold watch tracer
    by_cases hit : st.inTracer
    · simp [hp, hit]
    · rcases hd with rfl | rfl | rfl | rfl | rfl
      · simp only [hp, hit, hm1, if_false, if_true, Bool.false_eq_true, ite_false, ite_true,
          reduceIte]
        rcases hfd : mapFind st.map p with _ | e
        · simp only [hfd]
          exact fun h => h
        · simp only [hfd]
          by_cases hap : a = p
          · subst hap
            simp [recordOf, mapFind_mapSet_self]
          · simp [recordOf, mapFind_mapSet_ne _ _ _ _ hap]
      · simp only [hp, hit, hm2, d21, if_false, Bool.false_eq_true, ite_false, ite_true,
          reduceIte]
        by_cases hc1 : code = 1
        · simp [hc1, recordOf, mapFind]
        · by_cases hc2 : code = 2 <;> simp [hc1, hc2]
      · simp only [hp, hit, hm3, d31, d32, if_false, Bool.false_eq_true, ite_false, ite_true,
          reduceIte]
        rcases hfd : mapFind st.map p with _ | e
        · simp [hfd]
        · rcases e with ⟨lk, cs2⟩
          rcases lk with _ | l <;> simp [hfd]
      · simp [hp, hit, hm4, d41, d42, d43]
      · simp [hp, hit, hm5, d51, d52, d53, d54]

/-- C10 witness at `p = 9`, sentinel `s = SIZE_MAX - 2`, over a state holding
one live record at `4`. -/
theorem c10_sentinel_dispatch_witness :
    ((9 : Nat) ≠ 0 ∧ W - 3 ∈ [W - 1, W - 2, W - 3, W - 4, W - 5])
      ∧ watch cfg0 initState 9 (W - 1) [] 0 = forget cfg0 initState 9
      ∧ (recordOf (watch cfg0 (run cfg0 [Op.watch 4 6 []]) 9 (W - 3) [] 0) 4 = some 6 →
          recordOf (run cfg0 [Op.watch 4 6 []]) 4 = some 6) :=
  ⟨⟨by decide, by decide⟩,
    c10_sentinel_dispatch.1 cfg0 initState 9 [] 0 (by decide),
    c10_sentinel_dispatch.2 cfg0 (run cfg0 [Op.watch 4 6 []]) 9 [] 0 (W - 3) (by decide)
      (by decide) 4 6⟩

/-! ## Claim C8 -/

/-- C8 counterexample: with wild-pointer reporting enabled, a `forget` of an
address whose record was already forgotten (a nulled entry still keyed in the
map, hence "no matching live record") emits NO diagnostic — the claim's
"exactly one diagnostic" fails; only a `forget` of an address absent from the
map emits one.  After `watch(5,4); forget(5)` the address 5 has no live
record, yet a further `forget(5)` leaves the state — including the diagnostic
count, still 0 — exactly as it was. -/
theorem c8_counterexample :
    recordOf (run cfgWild [Op.watch 5 4 [], Op.forget 5]) 5 = none
      ∧ forget cfgWild (run cfgWild [Op.watch 5 4 [], Op.forget 5]) 5
          = run cfgWild [Op.watch 5 4 [], Op.forget 5]
      ∧ (forget cfgWild (run cfgWild [Op.watch 5 4 [], Op.forget 5]) 5).diagnostics = 0 :=
  ⟨by decide, by decide, by decide⟩

/-- C8 amended: with wild-pointer reporting enabled, a `forget` of an address
with no entry in the registry map (never watched, or watched only before the
last reset) emits exactly one diagnostic, leaves the registry map, all
counters and the watermark unchanged, and normalizes the request to the null
pointer so the subsequent free is a no-op; a `forget` of an
already-forgotten address (nulled entry still in the map) is absorbed with no
diagnostic and no counter change. -/
theorem c8_amended (cfg : Config) (st : State) (p : Nat)
    (hw : cfg.reportWildPointers = true) (hp : p ≠ 0) (hi : st.inTracer = false)
    (hf : mapFind st.map p = none) :
    (tracer cfg st p (W - 1) 0 []).state.map = st.map
      ∧ (tracer cfg st p (W - 1) 0 []).state.stats = st.stats
      ∧ (tracer cfg st p (W - 1) 0 []).state.timestampId = st.timestampId
      ∧ (tracer cfg st p (W - 1) 0 []).state.diagnostics = st.diagnostics + 1
      ∧ (tracer cfg st p (W - 1) 0 []).rptr = 0 := by
  have hm1 : (W - 1) % W = W - 1 := by decide
  unfold tracer
  rw [hi]
  simp [hp, hm1, hf, hw]

/-- C8 amended, witness: `forget(7)` on the empty registry with reporting
on. -/
theorem c8_amended_witness :
    (cfgWild.reportWildPointers = true ∧ (7 : Nat) ≠ 0 ∧ initState.inTracer = false
        ∧ mapFind initState.map 7 = none)
      ∧ (tracer cfgWild initState 7 (W - 1) 0 []).state.diagnostics
          = initState.diagnostics + 1 :=
  ⟨⟨rfl, by decide, rfl, rfl⟩,
    (c8_amended cfgWild initState 7 rfl (by decide) rfl rfl).2.2.2.1⟩

/-! ## Claim C5 -/

/-- C5 counterexample: `report()` does not return the report text — it
returns the log-file path `get_temp_pathfile() + "xxx-tracey.html"`.  On the
empty registry with temp path `"/tmp/"` the returned string is
`"/tmp/xxx-tracey.html"`, which differs from the generated report text and is
not wrapped in the HTML envelope. -/
theorem c5_counterexample :
    reportResult initState ("/tmp/") (fun _ => []) = "/tmp/xxx-tracey.html"
      ∧ reportResult initState ("/tmp/") (fun _ => [])
          ≠ reportContent initState (fun _ => [])
      ∧ (reportResult initState ("/tmp/") (fun _ => [])).data.take 17
          ≠ ("<html><body><xmp>").data :=
  ⟨rfl, by decide, by decide⟩

/-- C5 amended: the report operation builds the textual report, wraps it in
the minimal HTML envelope `<html><body><xmp>…</xmp></body></html>` and writes
that text to a temporary file; its result string is the PATH of that file,
`get_temp_pathfile() + "xxx-tracey.html"`, not the text. -/
theorem c5_amended (st : State) (tmp : String) (resolve : List Nat → List String)
    (hi : st.inTracer = false) :
    reportResult st tmp resolve = tmp ++ "xxx-tracey.html"
      ∧ (reportM st tmp resolve).1 = tmp ++ "xxx-tracey.html"
      ∧ ∃ mid, (reportM st tmp resolve).2
          = "<html><body><xmp>" ++ mid ++ "</xmp></body></html>" := by
  refine ⟨?_, rfl, ⟨reportMiddle st resolve, rfl⟩⟩
  simp [reportResult, hi, reportM]

/-- C5 amended, witness on the empty registry. -/
theorem c5_amended_witness :
    initState.inTracer = false
      ∧ reportResult initState ("t") (fun _ => []) = "t" ++ "xxx-tracey.html"
      ∧ ∃ mid, (reportM initState ("t") (fun _ => [])).2
          = "<html><body><xmp>" ++ mid ++ "</xmp></body></html>" :=
  ⟨rfl, (c5_amended initState ("t") (fun _ => []) rfl).1,
    (c5_amended initState ("t") (fun _ => []) rfl).2.2⟩

/-! ## Claim C4 -/

/-- C4: after `restart()` the global counters and the map are zeroed, so a
report taken right after a reset collects no leaks regardless of prior
history; and after `watch(a,5); reset(); watch(b,7)` the report collects
exactly the record of `b` (id 3, above the watermark 2) wasting 7 bytes. -/
theorem c4_reset_filter :
    (∀ cfg st, st.inTracer = false →
        (restart cfg st).stats = ⟨0, 0, 0⟩ ∧ (restart cfg st).map = []
          ∧ collectLeaks (restart cfg st) = ([], 0)
          ∧ nLeaks (restart cfg st) = 0 ∧ wasted (restart cfg st) = 0
          ∧ summary cfg (restart cfg st) = ⟨0, 0, 0⟩)
      ∧ (∀ cfg a b sa sb, a ≠ 0 → b ≠ 0 →
          collectLeaks (run cfg [Op.watch a 5 sa, Op.restart, Op.watch b 7 sb])
            = ([(b, ⟨7, 3⟩, sb)], 7)) := by
  constructor
  · intro cfg st hi
    rw [restart_step cfg st hi]
    exact ⟨rfl, rfl, rfl, rfl, rfl, summary_is_default cfg _⟩
  · intro cfg a b sa sb ha hb
    show collectLeaks
      (watch cfg (restart cfg (watch cfg initState a 5 sa 0)) b 7 sb 0) = ([(b, ⟨7, 3⟩, sb)], 7)
    rw [watch_step cfg initState a 5 sa 0 ha rfl (by decide)]
    rw [restart_step cfg _ rfl]
    rw [watch_step cfg _ b 7 sb 0 hb rfl (by decide)]
    simp [collectLeaks, initState, mapSet]
    decide

/-- C4 witness at `a = 1, b = 2`. -/
theorem c4_reset_filter_witness :
    (initState.inTracer = false ∧ (1 : Nat) ≠ 0 ∧ (2 : Nat) ≠ 0)
      ∧ collectLeaks (restart cfg0 initState) = ([], 0)
      ∧ collectLeaks (run cfg0 [Op.watch 1 5 [], Op.restart, Op.watch 2 7 []])
          = ([(2, ⟨7, 3⟩, [])], 7) :=
  ⟨⟨rfl, by decide, by decide⟩,
    (c4_reset_filter.1 cfg0 initState rfl).2.2.1,
    c4_reset_filter.2 cfg0 1 2 [] [] (by decide) (by decide)⟩

/-! ## Claim C3: well-formed histories and the registry invariant -/

theorem lookupL_mem (live : List (Nat × Nat)) (p s : Nat) (h : lookupL live p = some s) :
    (p, s) ∈ live := by
  induction live with
  | nil => simp [lookupL] at h
  | cons hd tl ih =>
    obtain ⟨k, v⟩ := hd
    by_cases hp : p = k
    · subst hp
      simp [lookupL] at h
      simp [h]
    · simp [lookupL, hp] at h
      simp [ih h]

theorem lookupL_none_iff (live : List (Nat × Nat)) (p : Nat) :
    lookupL live p = none ↔ p ∉ live.map Prod.fst := by
  induction live with
  | nil => simp [lookupL]
  | cons hd tl ih =>
    obtain ⟨k, v⟩ := hd
    by_cases hp : p = k
    · subst hp
      simp [lookupL]
    · simp [lookupL, hp, ih]

theorem lookupL_cons_ne (live : List (Nat × Nat)) (p sz a : Nat) (h : a ≠ p) :
    lookupL ((p, sz) :: live) a = lookupL live a := by
  simp [lookupL, h]

theorem sumLive_erase (live : List (Nat × Nat)) (p s : Nat)
    (h : lookupL live p = some s) : sumLive live = s + sumLive (eraseKey live p) := by
  induction live with
  | nil => simp [lookupL] at h
  | cons hd tl ih =>
    obtain ⟨k, v⟩ := hd
    by_cases hp : p = k
    · subst hp
      simp [lookupL] at h
      subst h
      simp [eraseKey, sumLive]
    · simp [lookupL, hp] at h
      have h2 := ih h
      simp only [eraseKey, if_neg hp, sumLive, List.map_cons, List.sum_cons] at h2 ⊢
      omega

theorem length_erase (live : List (Nat × Nat)) (p s : Nat)
    (h : lookupL live p = some s) : live.length = (eraseKey live p).length + 1 := by
  induction live with
  | nil => simp [lookupL] at h
  | cons hd tl ih =>
    obtain ⟨k, v⟩ := hd
    by_cases hp : p = k
    · subst hp
      simp [eraseKey]
    · simp [lookupL, hp] at h
      have h2 := ih h
      simp only [eraseKey, if_neg hp, List.length_cons]
      omega

theorem eraseKey_subset (live : List (Nat × Nat)) (p : Nat) :
    ∀ pr, pr ∈ eraseKey live p → pr ∈ live := by
  induction live with
  | nil => simp [eraseKey]
  | cons hd tl ih =>
    obtain ⟨k, v⟩ := hd
    by_cases hp : p = k
    · simp only [eraseKey, if_pos hp]
      intro pr hpr
      exact List.mem_cons_of_mem _ hpr
    · simp only [eraseKey, if_neg hp]
      intro pr hpr
      rcases List.mem_cons.mp hpr with h2 | h2
      · exact h2 ▸ List.mem_cons_self _ _
      · exact List.mem_cons_of_mem _ (ih pr h2)

theorem eraseKey_keys_sublist (live : List (Nat × Nat)) (p : Nat) :
    ((eraseKey live p).map Prod.fst).Sublist (live.map Prod.fst) := by
  induction live with
  | nil => simp [eraseKey]
  | cons hd tl ih =>
    obtain ⟨k, v⟩ := hd
    by_cases hp : p = k
    · simp only [eraseKey, if_pos hp, List.map_cons]
      exact List.sublist_cons_self _ _
    · simp only [eraseKey, if_neg hp, List.map_cons]
      exact List.Sublist.cons₂ _ ih

theorem lookupL_erase_self (live : List (Nat × Nat)) (p : Nat)
    (hnd : (live.map Prod.fst).Nodup) : lookupL (eraseKey live p) p = none := by
  induction live with
  | nil => simp [eraseKey, lookupL]
  | cons hd tl ih =>
    obtain ⟨k, v⟩ := hd
    simp only [List.map_cons, List.nodup_cons] at hnd
    by_cases hp : p = k
    · subst hp
      simp only [eraseKey, if_pos rfl]
      rw [lookupL_none_iff]
      exact hnd.1
    · simp only [eraseKey, if_neg hp, lookupL, if_neg hp]
      exact ih hnd.2

theorem lookupL_erase_ne (live : List (Nat × Nat)) (p a : Nat) (h : a ≠ p) :
    lookupL (eraseKey live p) a = lookupL live a := by
  induction live with
  | nil => simp [eraseKey]
  | cons hd tl ih =>
    obtain ⟨k, v⟩ := hd
    by_cases hp : p = k
    · subst hp
      simp [eraseKey, lookupL, h]
    · by_cases hak : a = k
      · subst hak
        simp [eraseKey, hp, lookupL]
      · simp [eraseKey, hp, lookupL, hak, ih]

theorem recordOf_some_elim (st : State) (p s : Nat) (h : recordOf st p = some s) :
    ∃ e l, mapFind st.map p = some e ∧ e.lk = some l ∧ l.size = s := by
  unfold recordOf at h
  rcases hf : mapFind st.map p with _ | e <;> rw [hf] at h
  · simp at h
  · dsimp only at h
    rcases hl : e.lk with _ | l <;> rw [hl] at h
    · simp at h
    · simp at h
      exact ⟨e, l, rfl, hl, h⟩

theorem inv_init : Inv initState [] := by
  refine ⟨rfl, fun a => rfl, by simp [sumLive, initState], by simp [initState], ?_, ?_, by simp⟩
  · intro pr hpr
    simp at hpr
  · intro pr hpr
    simp at hpr

theorem inv_watch (cfg : Config) (st : State) (live : List (Nat × Nat)) (p sz : Nat)
    (stk : CallStack) (code : Nat) (hinv : Inv st live) (hp : p ≠ 0) (hsz : sz < W - 5)
    (hlook : lookupL live p = none) : Inv (watch cfg st p sz stk code) ((p, sz) :: live) := by
  obtain ⟨hi, hrec, husage, hleaks, hszs, hnzs, hnd⟩ := hinv
  have hW : W = 18446744073709551616 := by decide
  rw [watch_step cfg st p sz stk code hp hi hsz]
  refine ⟨hi, ?_, ?_, ?_, ?_, ?_, ?_⟩
  · intro a
    by_cases hap : a = p
    · subst hap
      dsimp only [recordOf]
      rw [mapFind_mapSet_self]
      simp [lookupL]
    · dsimp only [recordOf]
      rw [mapFind_mapSet_ne _ _ _ _ hap, lookupL_cons_ne _ _ _ _ hap]
      exact hrec a
  · show (st.stats.usage + sz) % W = sumLive ((p, sz) :: live) % W
    rw [husage]
    simp only [sumLive, List.map_cons, List.sum_cons]
    rw [hW]
    omega
  · show (st.stats.leaks + 1) % W = ((p, sz) :: live).length % W
    rw [hleaks]
    simp only [List.length_cons]
    rw [hW]
    omega
  · intro pr hpr
    rcases List.mem_cons.mp hpr with h2 | h2
    · rw [h2]
      show sz < W
      omega
    · exact hszs pr h2
  · intro pr hpr
    rcases List.mem_cons.mp hpr with h2 | h2
    · rw [h2]
      exact hp
    · exact hnzs pr h2
  · simp only [List.map_cons, List.nodup_cons]
    exact ⟨(lookupL_none_iff live p).mp hlook, hnd⟩

theorem inv_forget (cfg : Config) (st : State) (live : List (Nat × Nat)) (p s : Nat)
    (hinv : Inv st live) (hl : lookupL live p = some s) :
    Inv (forget cfg st p) (eraseKey live p) := by
  obtain ⟨hi, hrec, husage, hleaks, hszs, hnzs, hnd⟩ := hinv
  have hW : W = 18446744073709551616 := by decide
  have hmem := lookupL_mem live p s hl
  have hp : p ≠ 0 := hnzs (p, s) hmem
  have hsW : s < W := hszs (p, s) hmem
  obtain ⟨e, l, hf, hlk, hls⟩ := recordOf_some_elim st p s (by rw [hrec p, hl])
  rw [forget_step_found cfg st p e l hp hi hf hlk]
  have hsum := sumLive_erase live p s hl
  have hlen := length_erase live p s hl
  refine ⟨hi, ?_, ?_, ?_, ?_, ?_, ?_⟩
  · intro a
    by_cases hap : a = p
    · subst hap
      dsimp only [recordOf]
      rw [mapFind_mapSet_self, lookupL_erase_self live a hnd]
      simp
    · dsimp only [recordOf]
      rw [mapFind_mapSet_ne _ _ _ _ hap, lookupL_erase_ne _ _ _ hap]
      exact hrec a
  · show (st.stats.usage + (W - l.size % W)) % W = sumLive (eraseKey live p) % W
    rw [husage, hls, hsum]
    rw [hW] at hsW ⊢
    omega
  · show (st.stats.leaks + (W - 1)) % W = (eraseKey live p).length % W
    rw [hleaks, hlen]
    rw [hW]
    omega
  · intro pr hpr
    exact hszs pr (eraseKey_subset live p pr hpr)
  · intro pr hpr
    exact hnzs pr (eraseKey_subset live p pr hpr)
  · exact List.Nodup.sublist (eraseKey_keys_sublist live p) hnd

/-- Simulation: executing a well-formed history from a state agreeing with
`live0` reaches a state agreeing with the final outstanding list, whose
total bytes grew at most by the watched bytes. -/
theorem runOuts_sim (cfg : Config) :
    ∀ (ops : List Op) (live0 live : List (Nat × Nat)) (st : State),
      runOuts live0 ops = some live → Inv st live0 →
      Inv (ops.foldl (step cfg) st) live
        ∧ sumLive live ≤ sumLive live0 + watchTotal ops := by
  intro ops
  induction ops with
  | nil =>
    intro live0 live st h hinv
    simp only [runOuts, Option.some.injEq] at h
    subst h
    exact ⟨hinv, by simp [watchTotal]⟩
  | cons op rest ih =>
    intro live0 live st h hinv
    rcases op with ⟨p, sz, stk⟩ | p | _
    · rw [runOuts] at h
      by_cases hc : p ≠ 0 ∧ sz < W - 5 ∧ (lookupL live0 p).isNone = true
      · rw [if_pos hc] at h
        obtain ⟨hp, hszlt, hlook⟩ := hc
        have hlooknone : lookupL live0 p = none := by
          rcases hl2 : lookupL live0 p with _ | s2
          · rfl
          · rw [hl2] at hlook
            simp at hlook
        have hres := ih ((p, sz) :: live0) live (watch cfg st p sz stk 0) h
          (inv_watch cfg st live0 p sz stk 0 hinv hp hszlt hlooknone)
        simp only [List.foldl_cons, step]
        refine ⟨hres.1, ?_⟩
        have h2 := hres.2
        simp only [sumLive, List.map_cons, List.sum_cons, watchTotal] at h2 ⊢
        omega
      · rw [if_neg hc] at h
        exact absurd h (by simp)
    · rw [runOuts] at h
      rcases hl : lookupL live0 p with _ | s
      · rw [hl] at h
        exact absurd h (by simp)
      · rw [hl] at h
        have hres := ih (eraseKey live0 p) live (forget cfg st p) h
          (inv_forget cfg st live0 p s hinv hl)
        simp only [List.foldl_cons, step]
        refine ⟨hres.1, ?_⟩
        have h2 := hres.2
        have hsum := sumLive_erase live0 p s hl
        simp only [watchTotal] at h2 ⊢
        omega
    · rw [runOuts] at h
      exact absurd h (by simp)

theorem watchTotal_append (a b : List Op) :
    watchTotal (a ++ b) = watchTotal a + watchTotal b := by
  induction a with
  | nil => simp [watchTotal]
  | cons op rest ih =>
    rcases op with ⟨p, sz, stk⟩ | p | _ <;>
      simp only [List.cons_append, watchTotal, List.append_eq] <;> omega

/-- C3: for every well-formed `watch`/`forget` history (matching addresses,
no address watched twice while live, total watched bytes below the machine
word), the final registry has no live record at any address that is not
outstanding — in particular none at an address whose final `forget` has
happened — and `live_bytes` equals the sum of the sizes of the outstanding
`watch` calls; moreover the same byte equation holds at every point of the
history (after every prefix). -/
theorem c3_registry_invariant (cfg : Config) (ops : List Op) (live : List (Nat × Nat))
    (h : runOuts [] ops = some live) (hb : watchTotal ops < W) :
    (∀ a, lookupL live a = none → recordOf (run cfg ops) a = none)
      ∧ (run cfg ops).stats.usage = sumLive live
      ∧ (∀ pre suf live2, ops = pre ++ suf → runOuts [] pre = some live2 →
          (run cfg pre).stats.usage = sumLive live2) := by
  have main : ∀ (ops2 : List Op) (live2 : List (Nat × Nat)), runOuts [] ops2 = some live2 →
      watchTotal ops2 < W →
      (∀ a, lookupL live2 a = none → recordOf (run cfg ops2) a = none)
        ∧ (run cfg ops2).stats.usage = sumLive live2 := by
    intro ops2 live2 h2 hb2
    obtain ⟨⟨hi, hrec, husage, hrest⟩, hbound⟩ := runOuts_sim cfg ops2 [] live2 initState h2 inv_init
    constructor
    · intro a ha
      unfold run
      rw [hrec a, ha]
    · have hlt : sumLive live2 < W := by
        have : sumLive ([] : List (Nat × Nat)) = 0 := by simp [sumLive]
        omega
      unfold run
      rw [husage, Nat.mod_eq_of_lt hlt]
  refine ⟨(main ops live h hb).1, (main ops live h hb).2, ?_⟩
  intro pre suf live2 hsplit h2
  have hwt : watchTotal pre ≤ watchTotal ops := by
    rw [hsplit, watchTotal_append]
    omega
  exact (main pre live2 h2 (lt_of_le_of_lt hwt hb)).2

/-- C3 witness: the history `watch(1,8); forget(1); watch(2,5)` is
well-formed with outstanding list `[(2,5)]`. -/
theorem c3_registry_invariant_witness :
    (runOuts [] [Op.watch 1 8 [], Op.forget 1, Op.watch 2 5 []] = some [(2, 5)]
        ∧ watchTotal [Op.watch 1 8 [], Op.forget 1, Op.watch 2 5 []] < W)
      ∧ (run cfg0 [Op.watch 1 8 [], Op.forget 1, Op.watch 2 5 []]).stats.usage = sumLive [(2, 5)]
      ∧ recordOf (run cfg0 [Op.watch 1 8 [], Op.forget 1, Op.watch 2 5 []]) 1 = none :=
  ⟨⟨by decide, by decide⟩,
    (c3_registry_invariant cfg0 [Op.watch 1 8 [], Op.forget 1, Op.watch 2 5 []] [(2, 5)]
      (by decide) (by decide)).2.1,
    (c3_registry_invariant cfg0 [Op.watch 1 8 [], Op.forget 1, Op.watch 2 5 []] [(2, 5)]
      (by decide) (by decide)).1 1 (by decide)⟩

/-! ## Claim C6: tree lemmas -/

mutual

theorem recalc_value_lt : ∀ t : Tree, leavesSum t < W32 → (Tree.recalc t).value = leavesSum t
  | .node v [], _ => rfl
  | .node _ (c :: cs), h => by
    have h2 : leavesSumL (c :: cs) < W32 := h
    simp only [Tree.recalc, Tree.value, leavesSum]
    rw [recalc_value_list_lt (c :: cs) h2, Nat.mod_eq_of_lt h2]

theorem recalc_value_list_lt :
    ∀ cs : List (Nat × Tree), leavesSumL cs < W32 → sumC (recalcList cs) = leavesSumL cs
  | [], _ => rfl
  | (k, t) :: r, h => by
    have h0 : leavesSum t + leavesSumL r < W32 := h
    have h1 : leavesSum t < W32 := by omega
    have h3 : leavesSumL r < W32 := by omega
    show (Tree.recalc t).value + sumC (recalcList r) = leavesSum t + leavesSumL r
    rw [recalc_value_lt t h1, recalc_value_list_lt r h3]

end

theorem leavesSum_node (v : Nat) (cs : List (Nat × Tree)) (h : cs ≠ []) :
    leavesSum (Tree.node v cs) = leavesSumL cs := by
  rcases cs with _ | ⟨c, cs2⟩
  · exact absurd rfl h
  · rfl

theorem leavesSum_ne_nil (t : Tree) (h : Tree.children t ≠ []) :
    leavesSum t = leavesSumL (Tree.children t) := by
  obtain ⟨v, cs⟩ := t
  exact leavesSum_node v cs h

theorem mapSet_ne_nil {A : Type} (m : List (Nat × A)) (k : Nat) (v : A) :
    mapSet m k v ≠ [] := by
  rcases m with _ | ⟨⟨k2, v2⟩, r⟩
  · simp [mapSet]
  · rw [mapSet]
    split
    · simp
    · split <;> simp

theorem leavesSumL_set_new (cs : List (Nat × Tree)) (k : Nat) (c : Tree)
    (h : mapFind cs k = none) :
    leavesSumL (mapSet cs k c) = leavesSumL cs + leavesSum c := by
  induction cs with
  | nil => simp [mapSet, leavesSumL]
  | cons hd tl ih =>
    obtain ⟨k2, c2⟩ := hd
    rw [mapFind] at h
    by_cases h1 : k < k2
    · simp only [mapSet, if_pos h1, leavesSumL]
      omega
    · rw [if_neg h1] at h
      by_cases h2 : k = k2
      · rw [if_pos h2] at h
        exact absurd h (by simp)
      · rw [if_neg h2] at h
        simp only [mapSet, if_neg h1, if_neg h2, leavesSumL, ih h]
        omega

theorem leavesSumL_set_replace (cs : List (Nat × Tree)) (k : Nat) (c c0 : Tree)
    (h : mapFind cs k = some c0) :
    leavesSumL (mapSet cs k c) + leavesSum c0 = leavesSumL cs + leavesSum c := by
  induction cs with
  | nil => simp [mapFind] at h
  | cons hd tl ih =>
    obtain ⟨k2, c2⟩ := hd
    rw [mapFind] at h
    by_cases h1 : k < k2
    · rw [if_pos h1] at h
      exact absurd h (by simp)
    · rw [if_neg h1] at h
      by_cases h2 : k = k2
      · rw [if_pos h2] at h
        have hc : c2 = c0 := by injection h
        subst hc
        simp only [mapSet, if_neg h1, if_pos h2, leavesSumL]
        omega
      · rw [if_neg h2] at h
        have h3 := ih h
        simp only [mapSet, if_neg h1, if_neg h2, leavesSumL] at h3 ⊢
        omega

theorem insertPath_children_cons (t : Tree) (k : Nat) (ks : List Nat) (s : Nat) :
    (insertPath t (k :: ks) s).children ≠ [] := by
  obtain ⟨v, cs⟩ := t
  rw [insertPath]
  exact mapSet_ne_nil _ _ _

theorem insertPath_children_keep (t : Tree) (q : List Nat) (s : Nat)
    (h : Tree.children t ≠ []) : (insertPath t q s).children ≠ [] := by
  rcases q with _ | ⟨k, ks⟩
  · rw [insertPath]
    exact h
  · exact insertPath_children_cons t k ks s

/-- Inserting a nonempty path below a leaf yields a chain whose only leaf
carries the inserted size. -/
theorem insertPath_leaf (p : List Nat) (v s : Nat) (hne : p ≠ []) :
    leavesSum (insertPath (Tree.node v []) p s) = s % W32 := by
  induction p generalizing v with
  | nil => exact absurd rfl hne
  | cons k ks ih =>
    rcases ks with _ | ⟨k2, ks2⟩
    · simp [insertPath, Tree.children, Tree.value, mapFind, mapSet, leavesSum, leavesSumL]
    · have h2 := ih (s % W32) (by simp)
      simp only [insertPath, Tree.children, Tree.value, mapFind, mapSet, Option.getD_none,
        leavesSum, leavesSumL] at h2 ⊢
      omega

/-- Inserting a fresh path adds exactly its size to the leaf total. -/
theorem insertPath_leavesSum (p : List Nat) :
    ∀ (t : Tree) (s : Nat), p ≠ [] → freshL (Tree.children t) p = true →
      (Tree.children t = [] → Tree.value t = 0) →
      leavesSum (insertPath t p s) = leavesSum t + s % W32 := by
  induction p with
  | nil => intro t s hne _ _; exact absurd rfl hne
  | cons k ks ih =>
    intro t s hne hfresh hroot
    obtain ⟨v, cs⟩ := t
    dsimp only [Tree.children, Tree.value] at hfresh hroot
    rcases ks with _ | ⟨k2, ks2⟩
    · have hnone : mapFind cs k = none := by
        rw [freshL] at hfresh
        rcases h : mapFind cs k with _ | c
        · rfl
        · rw [h] at hfresh
          simp at hfresh
      rw [insertPath]
      dsimp only [Tree.children, Tree.value]
      rw [hnone]
      show leavesSum (Tree.node v (mapSet cs k (Tree.node (s % W32) [])))
        = leavesSum (Tree.node v cs) + s % W32
      rw [leavesSum_node _ _ (mapSet_ne_nil _ _ _), leavesSumL_set_new cs k _ hnone]
      rcases cs with _ | ⟨c2, cs2⟩
      · show 0 + s % W32 = v + s % W32
        rw [hroot rfl]
      · rw [leavesSum_node v _ (by simp)]
        rfl
    · rw [freshL] at hfresh
      rcases hfind : mapFind cs k with _ | c
      · rw [insertPath]
        dsimp only [Tree.children, Tree.value]
        rw [hfind]
        show leavesSum (Tree.node v (mapSet cs k
            (insertPath (Tree.node (s % W32) []) (k2 :: ks2) s)))
          = leavesSum (Tree.node v cs) + s % W32
        rw [leavesSum_node _ _ (mapSet_ne_nil _ _ _), leavesSumL_set_new cs k _ hfind,
          insertPath_leaf (k2 :: ks2) (s % W32) s (by simp)]
        rcases cs with _ | ⟨c2, cs2⟩
        · show 0 + s % W32 = v + s % W32
          rw [hroot rfl]
        · rw [leavesSum_node v _ (by simp)]
      · rw [hfind] at hfresh
        simp only [Bool.and_eq_true, Bool.not_eq_true'] at hfresh
        obtain ⟨hcne0, hfr2⟩ := hfresh
        have hcne : Tree.children c ≠ [] := by
          intro hh
          rw [hh] at hcne0
          simp at hcne0
        rw [insertPath]
        dsimp only [Tree.children, Tree.value]
        rw [hfind]
        show leavesSum (Tree.node v (mapSet cs k
            (insertPath (Tree.node (s % W32) (Tree.children c)) (k2 :: ks2) s)))
          = leavesSum (Tree.node v cs) + s % W32
        have h2 := ih (Tree.node (s % W32) (Tree.children c)) s (by simp)
          (by dsimp only [Tree.children]; exact hfr2)
          (by dsimp only [Tree.children]; intro hh; exact absurd hh hcne)
        rw [leavesSum_node _ _ (by dsimp only [Tree.children]; exact hcne)] at h2
        have hrep := leavesSumL_set_replace cs k
          (insertPath (Tree.node (s % W32) (Tree.children c)) (k2 :: ks2) s) c hfind
        have hcles : leavesSum c = leavesSumL (Tree.children c) := leavesSum_ne_nil c hcne
        have hcsne : cs ≠ [] := by
          intro hh
          rw [hh] at hfind
          simp [mapFind] at hfind
        rw [leavesSum_node _ _ (mapSet_ne_nil _ _ _), leavesSum_node v cs hcsne]
        omega

theorem incomp_cons_same (f : Nat) (p q : List Nat) (h : incomp (f :: p) (f :: q)) :
    p ≠ [] ∧ q ≠ [] ∧ incomp p q := by
  obtain ⟨h1, h2⟩ := h
  simp only [List.isPrefixOf, beq_self_eq_true, Bool.true_and] at h1 h2
  refine ⟨?_, ?_, h1, h2⟩
  · intro hp
    subst hp
    simp [List.isPrefixOf] at h1
  · intro hq
    subst hq
    simp [List.isPrefixOf] at h2

theorem freshL_nil (p : List Nat) (hp : p ≠ []) : freshL [] p = true := by
  rcases p with _ | ⟨k, p2⟩
  · exact absurd rfl hp
  · rcases p2 with _ | ⟨k2, p3⟩
    · simp [freshL, mapFind]
    · simp [freshL, mapFind]

/-- A fresh chain built by inserting a nonempty path below a leaf stays fresh
for any path that is prefix-incomparable with the inserted one. -/
theorem freshL_chain (q : List Nat) :
    ∀ (p : List Nat) (v s : Nat), q ≠ [] → p ≠ [] → incomp p q →
      freshL ((insertPath (Tree.node v []) q s).children) p = true := by
  induction q with
  | nil => intro p v s hq; exact absurd rfl hq
  | cons g q2 ihq =>
    intro p v s hq hp hinc
    rcases p with _ | ⟨f, p2⟩
    · exact absurd rfl hp
    rw [insertPath]
    dsimp only [Tree.children, Tree.value]
    rw [show mapFind ([] : List (Nat × Tree)) g = none from rfl]
    show freshL (mapSet [] g (insertPath (Tree.node (s % W32) []) q2 s)) (f :: p2) = true
    by_cases hfg : f = g
    · subst hfg
      obtain ⟨hp2, hq2, hinc2⟩ := incomp_cons_same f p2 q2 hinc
      rcases p2 with _ | ⟨f2, p3⟩
      · exact absurd rfl hp2
      rw [freshL, mapFind_mapSet_self]
      have hchch : (insertPath (Tree.node (s % W32) []) q2 s).children ≠ [] := by
        rcases q2 with _ | ⟨g2, q3⟩
        · exact absurd rfl hq2
        · exact insertPath_children_cons _ _ _ _
      have hfr := ihq (f2 :: p3) (s % W32) s hq2 (by simp) hinc2
      simp only [Bool.and_eq_true, Bool.not_eq_true']
      constructor
      · rcases hcc : (insertPath (Tree.node (s % W32) []) q2 s).children with _ | ⟨x, xs⟩
        · exact absurd hcc hchch
        · simp
      · exact hfr
    · have hmf : mapFind (mapSet ([] : List (Nat × Tree)) g
          (insertPath (Tree.node (s % W32) []) q2 s)) f = none := by
        rw [mapFind_mapSet_ne _ _ _ _ hfg]
        rfl
      rcases p2 with _ | ⟨f2, p3⟩
      · rw [freshL, hmf]
        rfl
      · rw [freshL, hmf]

/-- Inserting a path keeps any prefix-incomparable path fresh. -/
theorem freshL_insert_preserved (q : List Nat) :
    ∀ (p : List Nat) (t : Tree) (s : Nat), q ≠ [] → p ≠ [] → incomp p q →
      freshL (Tree.children t) p = true →
      freshL ((insertPath t q s).children) p = true := by
  induction q with
  | nil => intro p t s hq; exact absurd rfl hq
  | cons g q2 ihq =>
    intro p t s hq hp hinc hfresh
    obtain ⟨v, cs⟩ := t
    dsimp only [Tree.children] at hfresh
    rcases p with _ | ⟨f, p2⟩
    · exact absurd rfl hp
    rw [insertPath]
    dsimp only [Tree.children, Tree.value]
    by_cases hfg : f = g
    · subst hfg
      obtain ⟨hp2, hq2, hinc2⟩ := incomp_cons_same f p2 q2 hinc
      rcases p2 with _ | ⟨f2, p3⟩
      · exact absurd rfl hp2
      rcases hfind : mapFind cs f with _ | c
      · show freshL (mapSet cs f (insertPath (Tree.node (s % W32) []) q2 s)) (f :: f2 :: p3) = true
        rw [freshL, mapFind_mapSet_self]
        have hchch : (insertPath (Tree.node (s % W32) []) q2 s).children ≠ [] := by
          rcases q2 with _ | ⟨g2, q3⟩
          · exact absurd rfl hq2
          · exact insertPath_children_cons _ _ _ _
        have hfr := freshL_chain q2 (f2 :: p3) (s % W32) s hq2 (by simp) hinc2
        have hfr2 : freshL (insertPath (Tree.node (s % W32) []) q2 s).children (f2 :: p3) = true := by
          have : (insertPath (Tree.node (s % W32) []) q2 s).children
              = ((insertPath (Tree.node (s % W32) []) q2 s).children) := rfl
          exact hfr
        simp only [Bool.and_eq_true, Bool.not_eq_true']
        constructor
        · rcases hcc : (insertPath (Tree.node (s % W32) []) q2 s).children with _ | ⟨x, xs⟩
          · exact absurd hcc hchch
          · simp
        · exact hfr2
      · show freshL (mapSet cs f (insertPath (Tree.node (s % W32) (Tree.children c)) q2 s))
          (f :: f2 :: p3) = true
        rw [freshL] at hfresh
        rw [hfind] at hfresh
        simp only [Bool.and_eq_true, Bool.not_eq_true'] at hfresh
        obtain ⟨hcne0, hfr0⟩ := hfresh
        have hcne : Tree.children c ≠ [] := by
          intro hh
          rw [hh] at hcne0
          simp at hcne0
        rw [freshL, mapFind_mapSet_self]
        have hkeep : (insertPath (Tree.node (s % W32) (Tree.children c)) q2 s).children ≠ [] := by
          apply insertPath_children_keep
          dsimp only [Tree.children]
          exact hcne
        have hfr := ihq (f2 :: p3) (Tree.node (s % W32) (Tree.children c)) s hq2 (by simp) hinc2
          (by dsimp only [Tree.children]; exact hfr0)
        simp only [Bool.and_eq_true, Bool.not_eq_true']
        constructor
        · rcases hcc : (insertPath (Tree.node (s % W32) (Tree.children c)) q2 s).children
            with _ | ⟨x, xs⟩
          · exact absurd hcc hkeep
          · simp
        · exact hfr
    · rcases hfind : mapFind cs g with _ | c
      · show freshL (mapSet cs g (insertPath (Tree.node (s % W32) []) q2 s)) (f :: p2) = true
        rcases p2 with _ | ⟨f2, p3⟩
        · rw [freshL, mapFind_mapSet_ne _ _ _ _ hfg]
          rw [freshL] at hfresh
          exact hfresh
        · rw [freshL, mapFind_mapSet_ne _ _ _ _ hfg]
          rw [freshL] at hfresh
          exact hfresh
      · show freshL (mapSet cs g (insertPath (Tree.node (s % W32) (Tree.children c)) q2 s))
          (f :: p2) = true
        rcases p2 with _ | ⟨f2, p3⟩
        · rw [freshL, mapFind_mapSet_ne _ _ _ _ hfg]
          rw [freshL] at hfresh
          exact hfresh
        · rw [freshL, mapFind_mapSet_ne _ _ _ _ hfg]
          rw [freshL] at hfresh
          exact hfresh

/-- Folding prefix-incomparable fresh paths into a tree adds exactly the sum
of their sizes to the leaf total. -/
theorem fold_insert_leavesSum {A : Type} (path : A → List Nat) (sz : A → Nat) :
    ∀ (L : List A) (t : Tree),
      (∀ x, x ∈ L → path x ≠ []) →
      List.Pairwise (fun x y => incomp (path x) (path y)) L →
      (∀ x, x ∈ L → freshL (Tree.children t) (path x) = true) →
      (Tree.children t = [] → Tree.value t = 0) →
      leavesSum (L.foldl (fun t2 x => insertPath t2 (path x) (sz x)) t)
        = leavesSum t + (L.map (fun x => sz x % W32)).sum := by
  intro L
  induction L with
  | nil =>
    intro t _ _ _ _
    simp
  | cons x rest ih =>
    intro t hne hpw hfresh hroot
    simp only [List.foldl_cons, List.map_cons, List.sum_cons]
    have hxne := hne x (List.mem_cons_self _ _)
    have hstep := insertPath_leavesSum (path x) t (sz x) hxne
      (hfresh x (List.mem_cons_self _ _)) hroot
    rw [List.pairwise_cons] at hpw
    have hind := ih (insertPath t (path x) (sz x))
      (fun y hy => hne y (List.mem_cons_of_mem _ hy))
      hpw.2
      (fun y hy => by
        have hi := hpw.1 y hy
        exact freshL_insert_preserved (path x) (path y) t (sz x) hxne
          (hne y (List.mem_cons_of_mem _ hy)) ⟨hi.2, hi.1⟩
          (hfresh y (List.mem_cons_of_mem _ hy)))
      (by
        intro hh
        obtain ⟨k, ks, hkk⟩ := List.exists_cons_of_ne_nil hxne
        rw [hkk] at hh
        exact absurd hh (insertPath_children_cons t k ks (sz x)))
    rw [hind, hstep]
    omega

theorem fold_insert_children_ne {A : Type} (path : A → List Nat) (sz : A → Nat) :
    ∀ (L : List A) (t : Tree), (∀ x, x ∈ L → path x ≠ []) →
      (Tree.children t ≠ [] ∨ L ≠ []) →
      Tree.children (L.foldl (fun t2 x => insertPath t2 (path x) (sz x)) t) ≠ [] := by
  intro L
  induction L with
  | nil =>
    intro t _ hc
    rcases hc with hc | hc
    · exact hc
    · exact absurd rfl hc
  | cons x rest ih =>
    intro t hne hc
    simp only [List.foldl_cons]
    apply ih _ (fun y hy => hne y (List.mem_cons_of_mem _ hy))
    left
    obtain ⟨k, ks, hkk⟩ := List.exists_cons_of_ne_nil (hne x (List.mem_cons_self _ _))
    rw [hkk]
    exact insertPath_children_cons t k ks (sz x)

theorem mapFind_recalcList (cs : List (Nat × Tree)) (k : Nat) :
    mapFind (recalcList cs) k = Option.map Tree.recalc (mapFind cs k) := by
  induction cs with
  | nil => rfl
  | cons hd tl ih =>
    obtain ⟨k2, t⟩ := hd
    show mapFind ((k2, Tree.recalc t) :: recalcList tl) k = _
    rw [mapFind, mapFind]
    by_cases h1 : k < k2
    · simp [h1]
    · by_cases h2 : k = k2
      · simp [h1, h2]
      · simp [h1, h2, ih]

theorem rootOf_recalc (t : Tree) (k : Nat) (c : Tree)
    (h : mapFind (Tree.children t) k = some c) :
    mapFind (Tree.children (Tree.recalc t)) k = some (Tree.recalc c) := by
  obtain ⟨v, cs⟩ := t
  dsimp only [Tree.children] at h
  rcases cs with _ | ⟨c0, cs2⟩
  · simp [mapFind] at h
  · show mapFind (recalcList (c0 :: cs2)) k = some (Tree.recalc c)
    rw [mapFind_recalcList, h]
    rfl

theorem childrenValueSum_recalc (t : Tree) (h : Tree.children t ≠ [])
    (hb : leavesSum t < W32) :
    childrenValueSum (Tree.recalc t) = leavesSum t := by
  obtain ⟨v, cs⟩ := t
  rcases cs with _ | ⟨c, cs2⟩
  · exact absurd rfl h
  · have hb2 : leavesSumL (c :: cs2) < W32 := hb
    show sumC (recalcList (c :: cs2)) = _
    rw [recalc_value_list_lt _ hb2]
    exact (leavesSum_node v (c :: cs2) (by simp)).symm

theorem framesWindow_eq (f : CallStack) : framesWindow f = f := by
  simp [framesWindow, kTraceyStacktraceSkipBegin, kTraceyStacktraceSkipEnd]

theorem bu_find_addLeak (t : Tree) (pr : CallStack × Nat) (c : Tree) (hne : pr.1 ≠ [])
    (h : mapFind (Tree.children t) (W - 1) = some c) :
    mapFind (Tree.children (addLeak t pr)) (W - 1)
      = some (insertPath c (framesWindow pr.1) pr.2) := by
  obtain ⟨v, cs⟩ := t
  dsimp only [Tree.children] at h
  have hlen : ¬pr.1.length = 0 := by simpa using hne
  rw [addLeak, if_neg hlen]
  dsimp only [Tree.children]
  rw [mapFind_mapSet_ne _ _ _ _ (by decide : (W : Nat) - 1 ≠ W - 2), mapFind_mapSet_self, h]
  rfl

theorem td_find_addLeak (t : Tree) (pr : CallStack × Nat) (c : Tree) (hne : pr.1 ≠ [])
    (h : mapFind (Tree.children t) (W - 2) = some c) :
    mapFind (Tree.children (addLeak t pr)) (W - 2)
      = some (insertPath c (framesWindow pr.1).reverse pr.2) := by
  obtain ⟨v, cs⟩ := t
  dsimp only [Tree.children] at h
  have hlen : ¬pr.1.length = 0 := by simpa using hne
  rw [addLeak, if_neg hlen]
  dsimp only [Tree.children]
  rw [mapFind_mapSet_self,
    mapFind_mapSet_ne _ _ _ _ (by decide : (W : Nat) - 2 ≠ W - 1), h]
  rfl

theorem bu_find_fold (leaks : List (CallStack × Nat)) :
    ∀ (t c : Tree), (∀ pr, pr ∈ leaks → pr.1 ≠ []) →
      mapFind (Tree.children t) (W - 1) = some c →
      mapFind (Tree.children (leaks.foldl addLeak t)) (W - 1)
        = some (leaks.foldl (fun t2 pr => insertPath t2 (framesWindow pr.1) pr.2) c) := by
  induction leaks with
  | nil =>
    intro t c _ h
    simpa using h
  | cons pr rest ih =>
    intro t c hne h
    simp only [List.foldl_cons]
    exact ih _ _ (fun y hy => hne y (List.mem_cons_of_mem _ hy))
      (bu_find_addLeak t pr c (hne pr (List.mem_cons_self _ _)) h)

theorem td_find_fold (leaks : List (CallStack × Nat)) :
    ∀ (t c : Tree), (∀ pr, pr ∈ leaks → pr.1 ≠ []) →
      mapFind (Tree.children t) (W - 2) = some c →
      mapFind (Tree.children (leaks.foldl addLeak t)) (W - 2)
        = some (leaks.foldl
            (fun t2 pr => insertPath t2 (framesWindow pr.1).reverse pr.2) c) := by
  induction leaks with
  | nil =>
    intro t c _ h
    simpa using h
  | cons pr rest ih =>
    intro t c hne h
    simp only [List.foldl_cons]
    exact ih _ _ (fun y hy => hne y (List.mem_cons_of_mem _ hy))
      (td_find_addLeak t pr c (hne pr (List.mem_cons_self _ _)) h)

theorem base_find_bu :
    mapFind (Tree.children (insertKey (insertKey (Tree.node 0 []) (W - 1)) (W - 2))) (W - 1)
      = some (Tree.node 0 []) := rfl

theorem base_find_td :
    mapFind (Tree.children (insertKey (insertKey (Tree.node 0 []) (W - 1)) (W - 2))) (W - 2)
      = some (Tree.node 0 []) := rfl

/-! ## Claim C6 -/

/-- C6 counterexample: two leaks sharing the full inserted path `[5]`, with
sizes 10 and 20.  The tree-building loop OVERWRITES the node value with each
leak's size, so after recalculation the sum over the direct children of the
bottom-top root is 20 — the size of the later leak — not the claimed 30, the
sum of the sizes of all contributing leaks. -/
theorem c6_counterexample :
    childrenValueSum (buRootOf (Tree.recalc (buildTree [([5], 10), ([5], 20)]))) = 20
      ∧ (([([5], 10), ([5], 20)] : List (CallStack × Nat)).map Prod.snd).sum = 30 :=
  ⟨rfl, rfl⟩

/-- C6 amended: each leak OVERWRITES (rather than accumulates) its size on
every node of its inserted path, so when two leaks share a full path, or one
path is a prefix of another, only part of the sizes survives recalculation.
Moreover a node value is the C `int` value type of `tree<void *>`, so sizes
are truncated to 32 bits on write and `recalc` accumulates modulo `2 ^ 32`.
Provided the inserted paths are pairwise distinct and none is a prefix of
another (for the orientation of the tree considered), and the total leaked
byte count fits in 32 bits, the sum of `value` over the direct children of
that tree root after `recalc` equals the sum of the sizes of all leaks that
contributed to it. -/
theorem c6_amended (leaks : List (CallStack × Nat))
    (hne : ∀ pr, pr ∈ leaks → pr.1 ≠ [])
    (hbu : List.Pairwise (fun x y => incomp x.1 y.1) leaks)
    (htd : List.Pairwise (fun x y => incomp x.1.reverse y.1.reverse) leaks)
    (hb : (leaks.map Prod.snd).sum < W32) :
    childrenValueSum (buRootOf (Tree.recalc (buildTree leaks))) = (leaks.map Prod.snd).sum
      ∧ childrenValueSum (tdRootOf (Tree.recalc (buildTree leaks)))
          = (leaks.map Prod.snd).sum := by
  have hmap : leaks.map (fun x => Prod.snd x % W32) = leaks.map Prod.snd := by
    apply List.map_congr_left
    intro a ha
    have hle : Prod.snd a ≤ (leaks.map Prod.snd).sum :=
      List.single_le_sum (fun x _ => Nat.zero_le x) _ (List.mem_map_of_mem Prod.snd ha)
    exact Nat.mod_eq_of_lt (lt_of_le_of_lt hle hb)
  have h00 : leavesSum (Tree.node 0 []) = 0 := rfl
  by_cases hL : leaks = []
  · subst hL
    exact ⟨rfl, rfl⟩
  · constructor
    · simp only [buildTree]
      have hfindBU := bu_find_fold leaks
        (insertKey (insertKey (Tree.node 0 []) (W - 1)) (W - 2)) (Tree.node 0 []) hne
        base_find_bu
      have hfne := fold_insert_children_ne (fun pr => framesWindow pr.1) Prod.snd leaks
        (Tree.node 0 [])
        (fun x hx => by simp only [framesWindow_eq]; exact hne x hx) (Or.inr hL)
      have hsum := fold_insert_leavesSum (fun pr => framesWindow pr.1) Prod.snd leaks
        (Tree.node 0 [])
        (fun x hx => by simp only [framesWindow_eq]; exact hne x hx)
        (List.Pairwise.imp (fun h => by simp only [framesWindow_eq]; exact h) hbu)
        (fun x hx => freshL_nil _ (by simp only [framesWindow_eq]; exact hne x hx))
        (fun _ => rfl)
      have hb2 : leavesSum (leaks.foldl
          (fun t2 pr => insertPath t2 (framesWindow pr.1) pr.2) (Tree.node 0 [])) < W32 := by
        rw [hsum, hmap, h00]
        omega
      unfold buRootOf
      rw [rootOf_recalc _ (W - 1) _ hfindBU, Option.getD_some,
        childrenValueSum_recalc _ hfne hb2, hsum, hmap]
      simp [leavesSum]
    · simp only [buildTree]
      have hfindTD := td_find_fold leaks
        (insertKey (insertKey (Tree.node 0 []) (W - 1)) (W - 2)) (Tree.node 0 []) hne
        base_find_td
      have hfne := fold_insert_children_ne (fun pr => (framesWindow pr.1).reverse)
        Prod.snd leaks (Tree.node 0 [])
        (fun x hx => by
          simp only [framesWindow_eq]
          exact fun hh => hne x hx (List.reverse_eq_nil_iff.mp hh)) (Or.inr hL)
      have hsum := fold_insert_leavesSum (fun pr => (framesWindow pr.1).reverse) Prod.snd
        leaks (Tree.node 0 [])
        (fun x hx => by
          simp only [framesWindow_eq]
          exact fun hh => hne x hx (List.reverse_eq_nil_iff.mp hh))
        (List.Pairwise.imp (fun h => by simp only [framesWindow_eq]; exact h) htd)
        (fun x hx => freshL_nil _ (by
          simp only [framesWindow_eq]
          exact fun hh => hne x hx (List.reverse_eq_nil_iff.mp hh)))
        (fun _ => rfl)
      have hb2 : leavesSum (leaks.foldl
          (fun t2 pr => insertPath t2 (framesWindow pr.1).reverse pr.2)
          (Tree.node 0 [])) < W32 := by
        rw [hsum, hmap, h00]
        omega
      unfold tdRootOf
      rw [rootOf_recalc _ (W - 2) _ hfindTD, Option.getD_some,
        childrenValueSum_recalc _ hfne hb2, hsum, hmap]
      simp [leavesSum]

/-- C6 amended, witness: two leaks with inserted paths `[1,2]` and `[1,3]`
(incomparable both ways), sizes 10 and 5, total 15 < 2 ^ 32; both tree roots
aggregate to 15. -/
theorem c6_amended_witness :
    ((∀ pr, pr ∈ ([([1, 2], 10), ([1, 3], 5)] : List (CallStack × Nat)) → pr.1 ≠ [])
        ∧ List.Pairwise (fun x y => incomp x.1 y.1)
            ([([1, 2], 10), ([1, 3], 5)] : List (CallStack × Nat))
        ∧ List.Pairwise (fun x y => incomp x.1.reverse y.1.reverse)
            ([([1, 2], 10), ([1, 3], 5)] : List (CallStack × Nat))
        ∧ (([([1, 2], 10), ([1, 3], 5)] : List (CallStack × Nat)).map Prod.snd).sum < W32)
      ∧ childrenValueSum
          (buRootOf (Tree.recalc (buildTree [([1, 2], 10), ([1, 3], 5)]))) = 15
      ∧ childrenValueSum
          (tdRootOf (Tree.recalc (buildTree [([1, 2], 10), ([1, 3], 5)]))) = 15 :=
  ⟨⟨by decide, by decide, by decide, by decide⟩,
    (c6_amended [([1, 2], 10), ([1, 3], 5)] (by decide) (by decide) (by decide) (by decide)).1,
    (c6_amended [([1, 2], 10), ([1, 3], 5)] (by decide) (by decide) (by decide) (by decide)).2⟩

/-! ## Claim C7 -/

theorem leaksPct_nonneg (n m : Nat) : 0 ≤ leaksPct n m := by
  unfold leaksPct
  split
  · positivity
  · exact le_refl 0

theorem scoreOf_eq_specScore (pct : ℚ) (hpct : 0 ≤ pct) : scoreOf pct = specScore pct := by
  simp only [scoreOf, specScore]
  by_cases h10 : pct > 10
  · rw [if_pos h10, if_neg (by linarith : ¬pct = 0), if_neg (by linarith : ¬pct ≤ 5 / 4),
      if_neg (by linarith : ¬pct ≤ 5 / 2), if_neg (by linarith : ¬pct ≤ 5),
      if_neg (by linarith : ¬pct ≤ 10)]
  · rw [if_neg h10]
    by_cases h5 : pct > 5
    · rw [if_pos h5, if_neg (by linarith : ¬pct = 0), if_neg (by linarith : ¬pct ≤ 5 / 4),
        if_neg (by linarith : ¬pct ≤ 5 / 2), if_neg (by linarith : ¬pct ≤ 5),
        if_pos (by linarith : pct ≤ 10)]
    · rw [if_neg h5]
      by_cases h25 : pct > 5 / 2
      · rw [if_pos h25, if_neg (by linarith : ¬pct = 0),
          if_neg (by linarith : ¬pct ≤ 5 / 4), if_neg (by linarith : ¬pct ≤ 5 / 2),
          if_pos (by linarith : pct ≤ 5)]
      · rw [if_neg h25]
        by_cases h125 : pct > 5 / 4
        · rw [if_pos h125, if_neg (by linarith : ¬pct = 0),
            if_neg (by linarith : ¬pct ≤ 5 / 4), if_pos (by linarith : pct ≤ 5 / 2)]
        · rw [if_neg h125]
          by_cases h0 : pct > 0
          · rw [if_pos h0, if_neg (by linarith : ¬pct = 0),
              if_pos (by linarith : pct ≤ 5 / 4)]
          · rw [if_neg h0, if_pos (by linarith : pct = 0)]

theorem specScore_perfect_iff (pct : ℚ) : specScore pct = "perfect!" ↔ pct = 0 := by
  unfold specScore
  by_cases h0 : pct = 0
  · simp [h0]
  · rw [if_neg h0]
    constructor
    · intro h
      by_cases h1 : pct ≤ 5 / 4
      · rw [if_pos h1] at h
        exact absurd h (by decide)
      · rw [if_neg h1] at h
        by_cases h2 : pct ≤ 5 / 2
        · rw [if_pos h2] at h
          exact absurd h (by decide)
        · rw [if_neg h2] at h
          by_cases h3 : pct ≤ 5
          · rw [if_pos h3] at h
            exact absurd h (by decide)
          · rw [if_neg h3] at h
            by_cases h4 : pct ≤ 10
            · rw [if_pos h4] at h
              exact absurd h (by decide)
            · rw [if_neg h4] at h
              exact absurd h (by decide)
    · intro h
      exact absurd h h0

theorem leaksPct_eq_zero_iff (n m : Nat) : leaksPct n m = 0 ↔ n = 0 ∨ m = 0 := by
  unfold leaksPct
  by_cases hm : m ≠ 0
  · rw [if_pos hm]
    rw [div_eq_zero_iff]
    constructor
    · intro h
      rcases h with h | h
      · have : (n : ℚ) = 0 := by
          have h100 : (100 : ℚ) ≠ 0 := by norm_num
          rcases mul_eq_zero.mp h with h2 | h2
          · exact h2
          · exact absurd h2 h100
        left
        exact_mod_cast this
      · right
        exact_mod_cast h
    · intro h
      rcases h with h | h
      · subst h
        left
        norm_num
      · exact absurd h hm
  · rw [if_neg hm]
    push_neg at hm
    simp [hm]

/-- C7 counterexample: ten allocation events at one address (nine freed, one
live) give `total_allocations_ever = 10` and one leak, so the claim's formula
`pct = 100 * leaks / total_allocations_ever = 10` selects "mediocre"; the
code divides by the map entry count (`this->size() = 1`, the re-watched
address counts once), computes `pct = 100` and prints "lame". -/
theorem c7_counterexample :
    scoreOfState (run cfg0 c7ops) = "lame"
      ∧ nLeaks (run cfg0 c7ops) = 1
      ∧ (run cfg0 c7ops).map.length = 1
      ∧ specTotalAllocationsEver c7ops = 10
      ∧ specScore (100 * 1 / 10 : ℚ) = "mediocre" := by
  have h1 : nLeaks (run cfg0 c7ops) = 1 := by decide
  have h2 : (run cfg0 c7ops).map.length = 1 := by decide
  refine ⟨?_, h1, h2, by decide, ?_⟩
  · unfold scoreOfState
    rw [h1, h2]
    norm_num [leaksPct, scoreOf]
  · norm_num [specScore]

/-- C7 amended: the score's denominator is the number of entries in the
registry map — the addresses watched since the last reset, freed entries
included, a re-watched address counted once — with `pct = 0` when the map is
empty; the buckets behave as the claim lists them (the source's last-match
cascade equals the first-match bucket list), and "perfect!" is printed if
and only if the report finds zero leaks. -/
theorem c7_amended (st : State) :
    scoreOfState st = specScore (leaksPct (nLeaks st) st.map.length)
      ∧ (scoreOfState st = "perfect!" ↔ nLeaks st = 0) := by
  have h1 : scoreOfState st = specScore (leaksPct (nLeaks st) st.map.length) :=
    scoreOf_eq_specScore _ (leaksPct_nonneg _ _)
  refine ⟨h1, ?_⟩
  rw [h1, specScore_perfect_iff, leaksPct_eq_zero_iff]
  constructor
  · intro h
    rcases h with h | h
    · exact h
    · have hmap : st.map = [] := List.length_eq_zero.mp h
      unfold nLeaks collectLeaks
      rw [hmap]
      rfl
  · intro h
    exact Or.inl h

end Tracey
